import Mathlib

/-!
# Verification of the minivac calculator engine

A shallow embedding of the calculator engine found in `src/engine/parser.js`
(the exported superset with scientific notation and trig callables) and the
compute engine in `src/unnamed/part_000` (its second, exported version, the
one the claims reference by line number).

Modelling conventions:
* JS strings are `List Char`; JS numbers are `ℚ` (the engine's arithmetic on
  the inputs the claims exercise is exact, so the rational abstraction of
  IEEE doubles is faithful there; `Math.PI` / `Math.E` are embedded as the
  exact rational values of the corresponding doubles).
* JS exceptions are an explicit `Err` type; functions that can throw return
  an error outcome carrying the symbol table as mutated up to the throw
  (JS mutates objects in place, so state changes before a throw persist).
* General recursion that is not structurally decreasing (the recursive
  descent parser, evaluation of stored callables, the factorial helper)
  takes an explicit fuel parameter decremented on every recursive call,
  with a distinguished `timeout` outcome; concrete claims are settled at a
  generous fuel, and fuel-independent facts are quantified over the fuel.
-/

namespace Minivac

/-- Token types, from `TokenType` / `OperatorTokenTypes` in parser.js
(second, exported version: includes `OperatorScientific`). -/
inductive TokType where
  | unsignedNumber
  | identifier
  | openingBracket
  | closingBracket
  | opAdd
  | opSub
  | opDiv
  | opMul
  | opPow
  | opFact
  | opScientific
  | opFuncCall
deriving DecidableEq, Repr

/-- The `OperatorType` map values: "unary" or "binary". -/
inductive OpType where
  | unary
  | binary
deriving DecidableEq, Repr

/-- Membership in `OperatorTokenTypes` (used by `Token.isOperator` and the
tokeniser's `_isOperator`). -/
def isOperatorTokenType : TokType → Bool
  | .opAdd | .opSub | .opDiv | .opMul | .opPow | .opFact
  | .opScientific | .opFuncCall => true
  | _ => false

/-- The `OperatorPrecedence` map (parser.js lines 221-229). Only queried for
operator token types. -/
def operatorPrecedenceOf : TokType → Nat
  | .opFuncCall => 110
  | .opFact => 100
  | .opPow => 90
  | .opScientific => 90
  | .opDiv => 80
  | .opMul => 70
  | .opAdd => 60
  | .opSub => 50
  | _ => 0

/-- The `OperatorType` map (parser.js lines 231-239). Only queried for
operator token types. -/
def operatorTypeOf : TokType → OpType
  | .opFuncCall => .unary
  | .opFact => .unary
  | _ => .binary

/-- `class Token` of parser.js: matched text, type, precedence and
unary/binary arity. -/
structure Token where
  text : List Char
  type : TokType
  precedence : Nat
  opType : OpType
deriving DecidableEq, Repr

namespace Token

/-- `Token.hasHigherPrecedenceThan`: strict comparison. -/
def hasHigherPrecedenceThan (t anotherToken : Token) : Bool :=
  t.precedence > anotherToken.precedence

/-- `Token.isOperator`. -/
def isOperator (t : Token) : Bool := isOperatorTokenType t.type

/-- `Token.isBinaryOperator`. -/
def isBinaryOperator (t : Token) : Bool := t.isOperator && t.opType == .binary

/-- `Token.isUnsignedNumber`. -/
def isUnsignedNumber (t : Token) : Bool := t.type == .unsignedNumber

/-- `Token.isPlus`. -/
def isPlus (t : Token) : Bool := t.type == .opAdd

/-- `Token.isMinus`. -/
def isMinus (t : Token) : Bool := t.type == .opSub

/-- `Token.isPlusOrMinus`. -/
def isPlusOrMinus (t : Token) : Bool := t.isPlus || t.isMinus

/-- `Token.isFactorial`. -/
def isFactorial (t : Token) : Bool := t.isOperator && t.type == .opFact

/-- `Token.isVariable`. -/
def isVariable (t : Token) : Bool := t.type == .identifier

/-- `Token.isFunctionCall`. -/
def isFunctionCall (t : Token) : Bool := t.isOperator && t.type == .opFuncCall

/-- `Token.isOpeningBracket`. -/
def isOpeningBracket (t : Token) : Bool := t.type == .openingBracket

/-- `Token.isClosingBracket`. -/
def isClosingBracket (t : Token) : Bool := t.type == .closingBracket

end Token

/-- The engine's error conditions. All but `nullDeref` model an explicit
`throw new Error(...)` in the source; `nullDeref` models the JS `TypeError`
raised when `.expression` / `.nextStartIndex` is read off a `null` or
`undefined` parse result, and `unimplementedMethod` models calling a method
that is not defined (the abstract `Expression.eval`, and `getXValue` used by
the built-in callables of `src/unnamed/part_000`, which is not defined in
the included sources). -/
inductive Err where
  | unknownTokens
  | notAStoredVariable (name : List Char)
  | notAStoredFunction (name : List Char)
  | cannotModify (name : List Char)
  | divideByZero
  | unknownUnaryOperator
  | expressionCannotStartWith (text : List Char)
  | expectedOperator
  | twoOperandsRequired
  | unexpectedOperand (text : List Char)
  | unmatchedBrackets
  | invalidFunctionCall
  | unknownAssignment
  | nullDeref
  | unimplementedMethod
deriving DecidableEq, Repr

/-- Distinguishes the spec's §7 error taxonomy (raised deliberately by the
engine) from the JS crashes (`nullDeref`, `unimplementedMethod`) that are
not part of it. -/
def Err.isTaxonomyError : Err → Bool
  | .nullDeref => false
  | .unimplementedMethod => false
  | _ => true

/-- `input.trim()`: drop whitespace from both ends. -/
def trimChars (l : List Char) : List Char :=
  ((l.dropWhile Char.isWhitespace).reverse.dropWhile Char.isWhitespace).reverse

/-- Builds a token the way `_nextMatchingToken` does after choosing the
type: operators get their precedence and arity from the two maps, anything
else gets precedence 0 and the default "unary". -/
def mkToken (text : List Char) (ty : TokType) : Token :=
  { text := text
    type := ty
    precedence := if isOperatorTokenType ty then operatorPrecedenceOf ty else 0
    opType := if isOperatorTokenType ty then operatorTypeOf ty else .unary }

/-- The text matched by `/^\d+(\.\d+)?/` at the head of the input, if any:
a nonempty digit run, optionally followed by `.` and a further nonempty
digit run (the group is only taken when at least one digit follows the
dot, as in the regex). -/
def matchNumberText (input : List Char) : Option (List Char) :=
  let ds := input.takeWhile Char.isDigit
  if ds.isEmpty then none
  else
    match input.drop ds.length with
    | c :: r2 =>
      if c = '.' then
        let frac := r2.takeWhile Char.isDigit
        if frac.isEmpty then some ds else some (ds ++ '.' :: frac)
      else some ds
    | [] => some ds

/-- `_nextMatchingToken` (second Tokeniser): tries the ordered matcher
table — number, lowercase identifier, `(`, `)`, `+`, `-`, `*`, `/`, `!`,
`^`, `E` — against the head of the input.  An identifier whose text is in
`availableFunctions` is reclassified as a function-call operator.  Returns
the token together with the rest of the input after
`input.replace(token.text, "").trim()` (the matched text is a prefix, so
`replace` removes exactly it); `none` when the input is empty, and the
"Unknown tokens in source." error when it is nonempty but nothing
matches. -/
def nextMatchingToken (input : List Char) (availableFunctions : List (List Char)) :
    Except Err (Option (Token × List Char)) :=
  match matchNumberText input with
  | some text => .ok (some (mkToken text .unsignedNumber, trimChars (input.drop text.length)))
  | none =>
    let ls := input.takeWhile Char.isLower
    if !ls.isEmpty then
      let ty : TokType := if availableFunctions.contains ls then .opFuncCall else .identifier
      .ok (some (mkToken ls ty, trimChars (input.drop ls.length)))
    else
      match input with
      | [] => .ok none
      | c :: rest =>
        let single (ty : TokType) : Except Err (Option (Token × List Char)) :=
          .ok (some (mkToken [c] ty, trimChars rest))
        if c = '(' then single .openingBracket
        else if c = ')' then single .closingBracket
        else if c = '+' then single .opAdd
        else if c = '-' then single .opSub
        else if c = '*' then single .opMul
        else if c = '/' then single .opDiv
        else if c = '!' then single .opFact
        else if c = '^' then single .opPow
        else if c = 'E' then single .opScientific
        else .error .unknownTokens

/-- The `tokenise` loop, with an explicit step budget.  Every matched token
consumes at least one character, so the budget `input.length + 1` used by
`tokenise` below can never run out (`tokeniseSteps_stable`); the 0-fuel
fallback is therefore dead code. -/
def tokeniseSteps : Nat → List Char → List (List Char) → Except Err (List Token)
  | 0, input, _ => if input.isEmpty then .ok [] else .error .unknownTokens
  | fuel + 1, input, availableFunctions =>
    match nextMatchingToken input availableFunctions with
    | .error e => .error e
    | .ok none => .ok []
    | .ok (some (tok, rest)) =>
      match tokeniseSteps fuel rest availableFunctions with
      | .ok toks => .ok (tok :: toks)
      | .error e => .error e

/-- `Tokeniser.tokenise(input, availableFunctions)`. -/
def tokenise (input : List Char) (availableFunctions : List (List Char)) :
    Except Err (List Token) :=
  tokeniseSteps (input.length + 1) input availableFunctions

/-- Digit run to natural number. -/
def digitsToNat (ds : List Char) : Nat :=
  ds.foldl (fun acc c => acc * 10 + (c.toNat - '0'.toNat)) 0

/-- `Number.parseFloat(token.text)` on the texts produced by the number
matcher (`digits` optionally followed by `.digits`), read exactly. -/
def parseNumber (cs : List Char) : ℚ :=
  let ds := cs.takeWhile Char.isDigit
  match cs.drop ds.length with
  | '.' :: frac => (digitsToNat ds : ℚ) + (digitsToNat frac : ℚ) / (10 : ℚ) ^ frac.length
  | _ => (digitsToNat ds : ℚ)

/-- The `Expression` class hierarchy of parser.js as a closed variant type.
One constructor per concrete subclass, plus:
* `variableTokenExpr`: `nextAsRightOperand` (parser.js line 1015) passes the
  whole `Token` object to `buildVariableExpression` where a name string is
  expected, so the resulting node's `varName` is a `Token`; its lookup
  `variable.name === varName` compares a string against an object and is
  always false, so evaluation always fails with "... is not a stored
  variable".
* `builtinExpr`: the bodies of the built-in callables (`SinExpr` etc. in
  `src/unnamed/part_000`); they call `this.getXValue(symbolsTable)`, a
  method not defined anywhere in the included sources, so evaluating one
  raises a JS `TypeError` (modelled as `unimplementedMethod`). -/
inductive Expression where
  | constantExpr (value : ℚ)
  | variableExpr (varName : List Char)
  | variableTokenExpr (varName : Token)
  | factorialExpr (operand : Expression)
  | binaryExpr (operator : List Char) (left right : Expression)
  | functionCallExpr (functionName : List Char) (argument : Expression)
  | builtinExpr (tag : List Char)
deriving DecidableEq, Repr

namespace Expression

/-- `Expression.buildUnaryExpression(operand, operatorToken)`: factorial or
the "Unknown unary operator" error. -/
def buildUnaryExpression (operand : Expression) (operatorToken : Token) :
    Except Err Expression :=
  if operatorToken.isFactorial then .ok (.factorialExpr operand)
  else .error .unknownUnaryOperator

/-- `Expression.buildBinaryExpression(operatorToken, left, right)`: the
operator stored is the token's text. -/
def buildBinaryExpression (operatorToken : Token) (left right : Expression) :
    Expression :=
  .binaryExpr operatorToken.text left right

/-- `Expression.buildConstantExpression(value)`. -/
def buildConstantExpression (value : ℚ) : Expression := .constantExpr value

/-- `Expression.buildVariableExpression(varName)` with a string argument
(the call in `Parser.parse` passes `token.text`). -/
def buildVariableExpression (varName : List Char) : Expression :=
  .variableExpr varName

/-- `Expression.buildFunctionCallExpression(functionName, argument)`. -/
def buildFunctionCallExpression (functionName : List Char) (argument : Expression) :
    Expression :=
  .functionCallExpr functionName argument

end Expression

/-- `class Variable` of parser.js (numeric case; the `Callable` subclass,
which stores an `Expression`, is modelled separately below since the two
collections never mix). -/
structure Variable where
  name : List Char
  value : ℚ
  isFinal : Bool
deriving DecidableEq, Repr

/-- `Variable.setTo(newValue)`: rejects mutation of final symbols. -/
def Variable.setTo (v : Variable) (newValue : ℚ) : Except Err Variable :=
  if v.isFinal then .error (.cannotModify v.name)
  else .ok { v with value := newValue }

/-- `class Callable extends Variable`: same fields, the value is an
`Expression`. -/
structure Callable where
  name : List Char
  value : Expression
  isFinal : Bool
deriving DecidableEq, Repr

/-- `Callable`'s inherited `setTo`. -/
def Callable.setTo (c : Callable) (newValue : Expression) : Except Err Callable :=
  if c.isFinal then .error (.cannotModify c.name)
  else .ok { c with value := newValue }

/-- `class SymbolsTable`.  (`vars` models the JS field `variables`, a
reserved word in Lean.) -/
structure SymbolsTable where
  vars : List Variable
  callables : List Callable
deriving DecidableEq, Repr

/-- The `variables.forEach` walk inside `setSymbol`: every entry whose name
matches is `setTo` the new value.  A `setTo` throw aborts the walk; entries
already updated keep their new values (JS mutates in place), which the
error case records by returning the partially updated list. The boolean is
the `exists` flag. -/
def updateVariables (symbolName : List Char) (value : ℚ) :
    List Variable → Except (Err × List Variable) (List Variable × Bool)
  | [] => .ok ([], false)
  | v :: rest =>
    if v.name == symbolName then
      match v.setTo value with
      | .error e => .error (e, v :: rest)
      | .ok v' =>
        match updateVariables symbolName value rest with
        | .ok (rest', _) => .ok (v' :: rest', true)
        | .error (e, rest') => .error (e, v' :: rest')
    else
      match updateVariables symbolName value rest with
      | .ok (rest', b) => .ok (v :: rest', b)
      | .error (e, rest') => .error (e, v :: rest')

/-- The `callables.forEach` walk inside `setSymbol`, same shape. -/
def updateCallables (symbolName : List Char) (value : Expression) :
    List Callable → Except (Err × List Callable) (List Callable × Bool)
  | [] => .ok ([], false)
  | c :: rest =>
    if c.name == symbolName then
      match c.setTo value with
      | .error e => .error (e, c :: rest)
      | .ok c' =>
        match updateCallables symbolName value rest with
        | .ok (rest', _) => .ok (c' :: rest', true)
        | .error (e, rest') => .error (e, c' :: rest')
    else
      match updateCallables symbolName value rest with
      | .ok (rest', b) => .ok (c :: rest', b)
      | .error (e, rest') => .error (e, c :: rest')

namespace SymbolsTable

/-- `setSymbol(name, value)` with a numeric value: update every matching
variable, else push a new non-final one at the end.  On a throw the table
keeps the mutations made before it. -/
def setSymbolNum (t : SymbolsTable) (symbolName : List Char) (value : ℚ) :
    Except (Err × SymbolsTable) SymbolsTable :=
  match updateVariables symbolName value t.vars with
  | .ok (vars', true) => .ok { t with vars := vars' }
  | .ok (vars', false) =>
    .ok { t with vars := vars' ++ [⟨symbolName, value, false⟩] }
  | .error (e, vars') => .error (e, { t with vars := vars' })

/-- `setSymbol(name, value)` with an `Expression` value (`value instanceof
Expression` branch): same logic on the callables collection. -/
def setSymbolExpr (t : SymbolsTable) (symbolName : List Char) (value : Expression) :
    Except (Err × SymbolsTable) SymbolsTable :=
  match updateCallables symbolName value t.callables with
  | .ok (cals', true) => .ok { t with callables := cals' }
  | .ok (cals', false) =>
    .ok { t with callables := cals' ++ [⟨symbolName, value, false⟩] }
  | .error (e, cals') => .error (e, { t with callables := cals' })

/-- `getVariable(name)`: first matching variable (`filter` + `[0]`), else
"`name` is not a stored variable". -/
def getVariable (t : SymbolsTable) (name : List Char) : Except Err Variable :=
  match t.vars.find? (fun v => v.name == name) with
  | some v => .ok v
  | none => .error (.notAStoredVariable name)

/-- `getCallable(name)`: first matching callable, else "`name` is not a
stored function". -/
def getCallable (t : SymbolsTable) (name : List Char) : Except Err Callable :=
  match t.callables.find? (fun c => c.name == name) with
  | some c => .ok c
  | none => .error (.notAStoredFunction name)

end SymbolsTable

/-- The numeric value the table currently holds under `name`, if any
(read through `getVariable` + `asNumber`). -/
def getVariableVal (t : SymbolsTable) (name : List Char) : Option ℚ :=
  match t.getVariable name with
  | .ok v => some v.value
  | .error _ => none

/-- `FactorialExpression.factorialise(value)` with an explicit unfolding
budget: `-1` for negative values, `1` for zero, otherwise
`factorialise(value - 1) * value`.  Each unfolding of the last branch costs
one unit of budget; `none` means the budget ran out before a base case was
reached. -/
def factSteps : Nat → ℚ → Option ℚ
  | fuel, value =>
    if value < 0 then some (-1)
    else if value = 0 then some 1
    else
      match fuel with
      | 0 => none
      | n + 1 => (factSteps n (value - 1)).map (fun r => r * value)

/-- A budget that always suffices for `factSteps`: `value ≤ value.num.toNat`
and each unfolding decreases the value by 1, so the recursion reaches a
base case (negative, or zero for non-negative integers) within
`value.num.toNat` unfoldings — see `factSteps_total`. -/
def factBudget (value : ℚ) : Nat := value.num.toNat

/-- `FactorialExpression.factorialise(value)`.  The JS recursion terminates
on every input (non-integers fall through 0 to the negative base case), so
the total function is `factSteps` run with the sufficient budget
`factBudget`; the `getD 0` default is dead code by `factSteps_total`. -/
def factorialise (value : ℚ) : ℚ :=
  (factSteps (factBudget value) value).getD 0

/-- `BinaryExpression.guidedDivide(leftVal, rightVal)`: the epsilon guard
`Math.abs(rightVal) < 0.00000001` then exact division. -/
def guidedDivide (leftVal rightVal : ℚ) : Except Err ℚ :=
  if |rightVal| < 1 / 100000000 then .error .divideByZero
  else .ok (leftVal / rightVal)

/-- `Math.pow(l, r)` restricted to the rational model: for an integral
exponent it is the integer power `l ^ r.num` (exact, matching the double
result on the inputs the engine's claims exercise); a non-integral exponent
generally has an irrational value, which ℚ cannot carry, so the model
returns 0 there (no claim evaluates `^` or `E` at a non-integral
exponent). -/
def ratPow (l r : ℚ) : ℚ :=
  if r.den = 1 then l ^ r.num else 0

/-- The `switch (this.operator)` of `BinaryExpression.eval`: the operator is
the stored token text; an unrecognized operator falls through the switch
and returns the `-1` sentinel. -/
def applyBinaryOperator (operator : List Char) (leftVal rightVal : ℚ) :
    Except Err ℚ :=
  if operator = ['+'] then .ok (leftVal + rightVal)
  else if operator = ['-'] then .ok (leftVal - rightVal)
  else if operator = ['*'] then .ok (leftVal * rightVal)
  else if operator = ['/'] then guidedDivide leftVal rightVal
  else if operator = ['^'] then .ok (ratPow leftVal rightVal)
  else if operator = ['E'] then .ok (leftVal * ratPow 10 rightVal)
  else .ok (-1)

/-- Result of evaluating an expression, an engine step, or a whole `run`
against the (mutable, in-place) symbol table: a value or a thrown error,
each with the table as left behind, or exhaustion of the recursion
budget. -/
inductive Outcome where
  | ok (value : ℚ) (table : SymbolsTable)
  | err (e : Err) (table : SymbolsTable)
  | timeout
deriving DecidableEq, Repr

/-- The returned value, when the outcome is a successful one. -/
def Outcome.val : Outcome → Option ℚ
  | .ok v _ => some v
  | _ => none

/-- The thrown error, when the outcome is a thrown one. -/
def Outcome.errOf : Outcome → Option Err
  | .err e _ => some e
  | _ => none

/-- Whether the outcome is a successful one. -/
def Outcome.isOk : Outcome → Bool
  | .ok _ _ => true
  | _ => false

/-- The value stored under `name` in the outcome's final table. -/
def Outcome.varVal : Outcome → List Char → Option ℚ
  | .ok _ t, n => getVariableVal t n
  | .err _ t, n => getVariableVal t n
  | .timeout, _ => none

/-- The reserved argument-slot name `"x"`. -/
def xName : List Char := ['x']

/-- `Expression.eval(symbolsTable)`, dispatching on the node kind exactly as
the subclasses of parser.js do:
* constants return their value;
* variable references look the name up (`VariableExpression.eval`);
* the token-object variable nodes built by `nextAsRightOperand` always fail
  the lookup (a JS string never `===`-equals a `Token` object);
* factorial evaluates the operand then `factorialise`;
* binary nodes evaluate left then right, then apply the operator switch;
* function calls evaluate the argument, store it under `"x"` via
  `setSymbol`, look the callable up, and evaluate its stored expression
  (`FunctionCallExpression.eval`) — the one step that can recurse through
  the table, hence the fuel;
* built-in bodies call the undefined `getXValue` and crash.
Fuel is decremented on every recursive call; `timeout` never occurs at the
budgets used below. -/
def evalExpr : Nat → Expression → SymbolsTable → Outcome
  | 0, _, _ => .timeout
  | _ + 1, .constantExpr v, t => .ok v t
  | _ + 1, .variableExpr name, t =>
    match t.getVariable name with
    | .ok v => .ok v.value t
    | .error e => .err e t
  | _ + 1, .variableTokenExpr tok, t => .err (.notAStoredVariable tok.text) t
  | fuel + 1, .factorialExpr operand, t =>
    match evalExpr fuel operand t with
    | .ok v t' => .ok (factorialise v) t'
    | r => r
  | fuel + 1, .binaryExpr operator left right, t =>
    match evalExpr fuel left t with
    | .ok leftVal t1 =>
      match evalExpr fuel right t1 with
      | .ok rightVal t2 =>
        match applyBinaryOperator operator leftVal rightVal with
        | .ok v => .ok v t2
        | .error e => .err e t2
      | r => r
    | r => r
  | fuel + 1, .functionCallExpr functionName argument, t =>
    match evalExpr fuel argument t with
    | .ok argValue t1 =>
      match t1.setSymbolNum xName argValue with
      | .error (e, t2) => .err e t2
      | .ok t2 =>
        match t2.getCallable functionName with
        | .error e => .err e t2
        | .ok c => evalExpr fuel c.value t2
    | r => r
  | _ + 1, .builtinExpr _, t => .err .unimplementedMethod t

/-- `class ParsingResult`. -/
structure ParsingResult where
  expression : Expression
  nextStartIndex : Nat
deriving DecidableEq, Repr

/-- Result of `Parser.parse` / `Parser.continueParsing`, which can return a
`ParsingResult`, return JS `null`/`undefined` (`ok none`), or throw. -/
inductive ParseOut where
  | ok (r : Option ParsingResult)
  | err (e : Err)
  | timeout
deriving DecidableEq, Repr

/-- Result of the parser helpers that always produce a `ParsingResult` or
throw (`nextAsRightOperand`, `parseBrackets`, `parseFunctionCall`). -/
inductive OperandOut where
  | ok (r : ParsingResult)
  | err (e : Err)
  | timeout
deriving DecidableEq, Repr

/-- `Parser._nextOperator(startIndex, tokens)`: the first operator token at
or after `startIndex`, if any. -/
def nextOperator (startIndex : Nat) (tokens : List Token) : Option Token :=
  (tokens.drop startIndex).find? Token.isOperator

/-- The synthesized `+` token `continueParsing` uses to wrap a finished
expression as `left + 0`. -/
def addToken : Token := ⟨['+'], .opAdd, 60, .binary⟩

mutual

/-- `Parser.parse(startIndex, tokens)` (parser.js lines 900-933): `null`
past the end; a leading `+`/`-` becomes `0 <op> operand`; numbers and
identifiers become leaves; function-call tokens and opening brackets
recurse; anything else throws "Expression cannot start with ...".  Every
successful branch continues through `continueParsing`. -/
def parse : Nat → Nat → List Token → ParseOut
  | 0, _, _ => .timeout
  | fuel + 1, startIndex, tokens =>
    if h : startIndex ≥ tokens.length then .ok none
    else
      let token := tokens.get ⟨startIndex, by omega⟩
      if token.isPlusOrMinus then
        match nextAsRightOperand fuel (startIndex + 1) tokens with
        | .ok right =>
          continueParsing fuel
            (Expression.buildBinaryExpression token
              (Expression.buildConstantExpression 0) right.expression)
            right.nextStartIndex tokens
        | .err e => .err e
        | .timeout => .timeout
      else if token.isUnsignedNumber then
        continueParsing fuel (Expression.buildConstantExpression (parseNumber token.text))
          (startIndex + 1) tokens
      else if token.isVariable then
        continueParsing fuel (Expression.buildVariableExpression token.text)
          (startIndex + 1) tokens
      else if token.isFunctionCall then
        match parseFunctionCall fuel startIndex tokens with
        | .ok left => continueParsing fuel left.expression left.nextStartIndex tokens
        | .err e => .err e
        | .timeout => .timeout
      else if token.isOpeningBracket then
        match parseBrackets fuel startIndex tokens with
        | .ok left => continueParsing fuel left.expression left.nextStartIndex tokens
        | .err e => .err e
        | .timeout => .timeout
      else .err (.expressionCannotStartWith token.text)

/-- `Parser.continueParsing(leftExpression, startIndex, tokens)` (parser.js
lines 943-998).  Past the end it wraps the finished operand as `left + 0`.
A closing bracket stops without consuming.  Postfix `!` wraps the left
operand.  A binary operator compares its precedence against the next
operator anywhere later in the stream: strictly higher (or no further
operator) binds just the next single operand, otherwise it recurses fully
on the remainder; the recursion's `null` result would be dereferenced by
the JS code (`right.expression`), modelled as `nullDeref`.  An operator
that is neither (a function-call token after a complete operand) falls
through the inner if-chain: the JS function returns `undefined`, modelled
as `ok none`.  A non-operator token throws "Expected an operator.". -/
def continueParsing : Nat → Expression → Nat → List Token → ParseOut
  | 0, _, _, _ => .timeout
  | fuel + 1, leftExpression, startIndex, tokens =>
    if h : startIndex ≥ tokens.length then
      .ok (some ⟨Expression.buildBinaryExpression addToken leftExpression
        (Expression.buildConstantExpression 0), startIndex⟩)
    else
      let token := tokens.get ⟨startIndex, by omega⟩
      if token.isOperator || token.isClosingBracket then
        if token.isClosingBracket then
          .ok (some ⟨leftExpression, startIndex⟩)
        else if token.isFactorial then
          match Expression.buildUnaryExpression leftExpression token with
          | .ok left => continueParsing fuel left (startIndex + 1) tokens
          | .error e => .err e
        else if token.isBinaryOperator then
          let takeSingleOperand :=
            match nextOperator (startIndex + 1) tokens with
            | none => true
            | some nextOp => token.hasHigherPrecedenceThan nextOp
          if takeSingleOperand then
            match nextAsRightOperand fuel (startIndex + 1) tokens with
            | .ok right =>
              continueParsing fuel
                (Expression.buildBinaryExpression token leftExpression right.expression)
                right.nextStartIndex tokens
            | .err e => .err e
            | .timeout => .timeout
          else
            match parse fuel (startIndex + 1) tokens with
            | .ok (some right) =>
              continueParsing fuel
                (Expression.buildBinaryExpression token leftExpression right.expression)
                right.nextStartIndex tokens
            | .ok none => .err .nullDeref
            | .err e => .err e
            | .timeout => .timeout
        else .ok none
      else .err .expectedOperator

/-- `Parser.nextAsRightOperand(startIndex, tokens)` (parser.js lines
1007-1037): one operand — a variable or number leaf, a bracketed
sub-expression, a function call, or a signed operand.  Note the variable
branch passes the whole token to `buildVariableExpression` (the
`variableTokenExpr` slip).  Throws "Binary operator requires two operands"
past the end and "Unexpected operand ..." otherwise. -/
def nextAsRightOperand : Nat → Nat → List Token → OperandOut
  | 0, _, _ => .timeout
  | fuel + 1, startIndex, tokens =>
    if h : startIndex ≥ tokens.length then .err .twoOperandsRequired
    else
      let token := tokens.get ⟨startIndex, by omega⟩
      if token.isVariable || token.isUnsignedNumber then
        let operandExpression :=
          if token.isVariable then Expression.variableTokenExpr token
          else Expression.buildConstantExpression (parseNumber token.text)
        .ok ⟨operandExpression, startIndex + 1⟩
      else if token.isOpeningBracket then
        parseBrackets fuel startIndex tokens
      else if token.isFunctionCall then
        parseFunctionCall fuel startIndex tokens
      else if token.isPlusOrMinus then
        match nextAsRightOperand fuel (startIndex + 1) tokens with
        | .ok right =>
          .ok ⟨Expression.buildBinaryExpression token
            (Expression.buildConstantExpression 0) right.expression,
            right.nextStartIndex⟩
        | r => r
      else .err (.unexpectedOperand token.text)

/-- `Parser.parseBrackets(startIndex, tokens)` (parser.js lines 1046-1062):
parse after the opening bracket; the result must land exactly on a closing
bracket, which is skipped; a `null`/`undefined` inner result throws
"Unmatched brackets." too. -/
def parseBrackets : Nat → Nat → List Token → OperandOut
  | 0, _, _ => .timeout
  | fuel + 1, startIndex, tokens =>
    match parse fuel (startIndex + 1) tokens with
    | .ok (some right) =>
      if h : right.nextStartIndex ≥ tokens.length then .err .unmatchedBrackets
      else if (tokens.get ⟨right.nextStartIndex, by omega⟩).isClosingBracket then
        .ok ⟨right.expression, right.nextStartIndex + 1⟩
      else .err .unmatchedBrackets
    | .ok none => .err .unmatchedBrackets
    | .err e => .err e
    | .timeout => .timeout

/-- `Parser.parseFunctionCall(startIndex, tokens)` (parser.js lines
1071-1084): needs at least 4 tokens from `startIndex`, parses the bracketed
argument starting right after the name, and builds the call node from the
name token's text. -/
def parseFunctionCall : Nat → Nat → List Token → OperandOut
  | 0, _, _ => .timeout
  | fuel + 1, startIndex, tokens =>
    if h : startIndex + 3 ≥ tokens.length then .err .invalidFunctionCall
    else
      match parseBrackets fuel (startIndex + 1) tokens with
      | .ok arg =>
        .ok ⟨Expression.buildFunctionCallExpression
          (tokens.get ⟨startIndex, by omega⟩).text arg.expression,
          arg.nextStartIndex⟩
      | .err e => .err e
      | .timeout => .timeout

end

/-- `Parser.evalString(text, symbolsTable)` (parser.js lines 883-890):
collect the callable names, tokenise, parse from index 0, and evaluate the
resulting expression against the table.  `parse` returning `null` makes the
JS code read `.expression` off `null` (TypeError, `nullDeref`).
`parserFuel` bounds the parser recursion and `evalFuel` the evaluation
recursion. -/
def evalString (parserFuel evalFuel : Nat) (t : SymbolsTable) (text : List Char) :
    Outcome :=
  let functionNames := t.callables.map (·.name)
  match tokenise text functionNames with
  | .error e => .err e t
  | .ok tokens =>
    match parse parserFuel 0 tokens with
    | .ok (some r) => evalExpr evalFuel r.expression t
    | .ok none => .err .nullDeref t
    | .err e => .err e t
    | .timeout => .timeout

/-- Result of `ComputeEngine._getExpression`, which returns an expression
tree without evaluating anything (the table is only read, never written). -/
inductive ExprOut where
  | ok (e : Expression)
  | err (e : Err)
  | timeout
deriving DecidableEq, Repr

/-- `ComputeEngine._getExpression(text)` (part_000 lines 319-327): tokenise
against the current callable names and parse; the JS `.expression` read off
a `null` parse result is the same `TypeError` as in `evalString`. -/
def getExpression (parserFuel : Nat) (t : SymbolsTable) (text : List Char) : ExprOut :=
  let availableFunctions := t.callables.map (·.name)
  match tokenise text availableFunctions with
  | .error e => .err e
  | .ok tokens =>
    match parse parserFuel 0 tokens with
    | .ok (some r) => .ok r.expression
    | .ok none => .err .nullDeref
    | .err e => .err e
    | .timeout => .timeout

/-- The exact rational value of the IEEE-754 double `Math.PI`. -/
def piVal : ℚ := 884279719003555 / 281474976710656

/-- The exact rational value of the IEEE-754 double `Math.E`. -/
def eVal : ℚ := 6121026514868073 / 2251799813685248

/-- `getDefaultSymbolsTable()` of `src/unnamed/part_000` (second version):
`ans`/`preans` at 0 (mutable), the final constants `pi` and `e`, and the
eleven final built-in callables whose bodies are the `getXValue`-based
expression subclasses. -/
def getDefaultSymbolsTable : SymbolsTable :=
  { vars :=
      [⟨"ans".data, 0, false⟩,
       ⟨"preans".data, 0, false⟩,
       ⟨"pi".data, piVal, true⟩,
       ⟨"e".data, eVal, true⟩]
    callables :=
      [⟨"sin".data, .builtinExpr "sin".data, true⟩,
       ⟨"asin".data, .builtinExpr "asin".data, true⟩,
       ⟨"asinh".data, .builtinExpr "asinh".data, true⟩,
       ⟨"cos".data, .builtinExpr "cos".data, true⟩,
       ⟨"acos".data, .builtinExpr "acos".data, true⟩,
       ⟨"acosh".data, .builtinExpr "acosh".data, true⟩,
       ⟨"tan".data, .builtinExpr "tan".data, true⟩,
       ⟨"atan".data, .builtinExpr "atan".data, true⟩,
       ⟨"atanh".data, .builtinExpr "atanh".data, true⟩,
       ⟨"rad".data, .builtinExpr "rad".data, true⟩,
       ⟨"deg".data, .builtinExpr "deg".data, true⟩] }

/-- JS `String.prototype.split` with a single-character separator: all
occurrences split, empty segments kept. -/
def splitOnChar (sep : Char) : List Char → List (List Char)
  | [] => [[]]
  | c :: rest =>
    if c = sep then [] :: splitOnChar sep rest
    else
      match splitOnChar sep rest with
      | s :: ss => (c :: s) :: ss
      | [] => [[c]]

/-- The test `/^[a-z]+\(x\)$/.exec(left)`: a nonempty lowercase run followed
by exactly `(x)`. -/
def isFuncDefPattern (left : List Char) : Bool :=
  let ls := left.takeWhile Char.isLower
  !ls.isEmpty && left.drop ls.length == ['(', 'x', ')']

/-- The test `/^[a-z]+$/.exec(left)`: a nonempty all-lowercase string. -/
def isVarNamePattern (left : List Char) : Bool :=
  let ls := left.takeWhile Char.isLower
  !ls.isEmpty && (left.drop ls.length).isEmpty

/-- `left.split("(")[0]`, the function name of a definition's left side. -/
def funcNameOf (left : List Char) : List Char :=
  (splitOnChar '(' left).headD []

/-- `ComputeEngine._handleAssignment(left, right)` (part_000 lines 292-311):
a function-definition left side parses the right side into an expression
and stores it as a callable; a variable-name left side evaluates the right
side and stores the number; anything else throws "Unknown assignment.".
Both successful routes return 0. -/
def handleAssignment (parserFuel evalFuel : Nat) (t : SymbolsTable)
    (left right : List Char) : Outcome :=
  if isFuncDefPattern left then
    match getExpression parserFuel t right with
    | .ok expression =>
      match t.setSymbolExpr (funcNameOf left) expression with
      | .ok t' => .ok 0 t'
      | .error (e, t') => .err e t'
    | .err e => .err e t
    | .timeout => .timeout
  else if isVarNamePattern left then
    match evalString parserFuel evalFuel t right with
    | .ok value t1 =>
      match t1.setSymbolNum left value with
      | .ok t2 => .ok 0 t2
      | .error (e, t2) => .err e t2
    | .err e t1 => .err e t1
    | .timeout => .timeout
  else .err .unknownAssignment t

/-- `ComputeEngine.run(text)` (part_000 lines 268-283).  A text containing
`=` is split on every `=` (JS `split`); `units[0]` and `units[1]` — trimmed
— go to `_handleAssignment` (segments after a second `=` are dropped).
Otherwise the whole text is evaluated and the history is rolled:
`preans := ans` (read after evaluation, which never writes `ans`), then
`ans := ret`. -/
def run (parserFuel evalFuel : Nat) (t : SymbolsTable) (text : List Char) : Outcome :=
  if text.contains '=' then
    match splitOnChar '=' text with
    | u0 :: u1 :: _ => handleAssignment parserFuel evalFuel t (trimChars u0) (trimChars u1)
    | _ => .err .nullDeref t
  else
    match evalString parserFuel evalFuel t text with
    | .ok ret t1 =>
      match t1.getVariable ("ans".data) with
      | .error e => .err e t1
      | .ok ansVar =>
        match t1.setSymbolNum ("preans".data) ansVar.value with
        | .error (e, t2) => .err e t2
        | .ok t2 =>
          match t2.setSymbolNum ("ans".data) ret with
          | .error (e, t3) => .err e t3
          | .ok t3 => .ok ret t3
    | r => r

/-- The behaviour claim C2 describes, following the claim's words rather
than the source: "run splits it on the first occurrence of `=` into left
and right parts" — so the right part is everything after the first `=` —
with the rest of the handling identical.  Used only to compare against
`run`, which instead takes `split("=")[0]` and `split("=")[1]`. -/
def runFirstSplit (parserFuel evalFuel : Nat) (t : SymbolsTable) (text : List Char) :
    Outcome :=
  if text.contains '=' then
    let left := text.takeWhile (fun c => !(c == '='))
    let right := (text.drop left.length).drop 1
    handleAssignment parserFuel evalFuel t (trimChars left) (trimChars right)
  else
    match evalString parserFuel evalFuel t text with
    | .ok ret t1 =>
      match t1.getVariable ("ans".data) with
      | .error e => .err e t1
      | .ok ansVar =>
        match t1.setSymbolNum ("preans".data) ansVar.value with
        | .error (e, t2) => .err e t2
        | .ok t2 =>
          match t2.setSymbolNum ("ans".data) ret with
          | .error (e, t3) => .err e t3
          | .ok t3 => .ok ret t3
    | r => r

/-- Runs a sequence of inputs against one engine, threading the table, and
collects the returned values; `none` as soon as any run fails. -/
def runSeq (parserFuel evalFuel : Nat) : SymbolsTable → List (List Char) → Option (List ℚ)
  | _, [] => some []
  | t, text :: rest =>
    match run parserFuel evalFuel t text with
    | .ok v t' => (runSeq parserFuel evalFuel t' rest).map (v :: ·)
    | _ => none

/-- An expression that contains no function call, no built-in body, and no
reference to the history variables `ans`/`preans`.  Evaluating such an
expression can neither mutate the table (only `FunctionCallExpression.eval`
writes, through the `x` slot) nor observe the history roll. -/
def noCallNoHistory : Expression → Bool
  | .constantExpr _ => true
  | .variableExpr n => !(n == "ans".data) && !(n == "preans".data)
  | .variableTokenExpr _ => true
  | .factorialExpr e => noCallNoHistory e
  | .binaryExpr _ l r => noCallNoHistory l && noCallNoHistory r
  | .functionCallExpr _ _ => false
  | .builtinExpr _ => false

/-! ## Symbol-table lemmas

The `forEach`-style update walk (`updateVariables`) and `setSymbol`:
how lookups, finality flags and the table relate across an update. -/

theorem Variable.setTo_ok {v : Variable} {val : ℚ} {v' : Variable}
    (h : v.setTo val = .ok v') : v.isFinal = false ∧ v' = { v with value := val } := by
  unfold Variable.setTo at h
  by_cases hf : v.isFinal
  · rw [if_pos hf] at h; cases h
  · rw [if_neg hf] at h
    injection h with h
    exact ⟨by simpa using hf, h.symm⟩

theorem Variable.setTo_error {v : Variable} {val : ℚ} {e : Err}
    (h : v.setTo val = .error e) : v.isFinal = true ∧ e = .cannotModify v.name := by
  unfold Variable.setTo at h
  by_cases hf : v.isFinal
  · rw [if_pos hf] at h
    injection h with h
    exact ⟨hf, h.symm⟩
  · rw [if_neg hf] at h; cases h

theorem updateVariables_ok_find_other {n : List Char} {val : ℚ} :
    ∀ {vars vars' : List Variable} {b : Bool} {m : List Char},
      updateVariables n val vars = .ok (vars', b) → m ≠ n →
      vars'.find? (fun v => v.name == m) = vars.find? (fun v => v.name == m) := by
  intro vars
  induction vars with
  | nil => intro vars' b m h _; simp only [updateVariables] at h; cases h; rfl
  | cons v rest ih =>
    intro vars' b m h hm
    simp only [updateVariables] at h
    by_cases hv : v.name = n
    · rw [if_pos (by simp [hv])] at h
      cases hst : v.setTo val with
      | error e => rw [hst] at h; cases h
      | ok v' =>
        rw [hst] at h
        cases hrest : updateVariables n val rest with
        | error p => rw [hrest] at h; cases h
        | ok p =>
          obtain ⟨rest', b'⟩ := p
          rw [hrest] at h
          cases h
          have hvn : v'.name = v.name := by rw [(Variable.setTo_ok hst).2]
          have hnm : v.name ≠ m := by rw [hv]; exact fun hc => hm hc.symm
          have hf1 : (v'.name == m) = false := by simp [hvn, hnm]
          have hf2 : (v.name == m) = false := by simp [hnm]
          simp only [List.find?, hf1, hf2]
          exact ih hrest hm
    · rw [if_neg (by simp [hv])] at h
      cases hrest : updateVariables n val rest with
      | error p => rw [hrest] at h; cases h
      | ok p =>
        obtain ⟨rest', b'⟩ := p
        rw [hrest] at h
        cases h
        by_cases hvm : v.name = m
        · have hf1 : (v.name == m) = true := by simp [hvm]
          simp only [List.find?, hf1]
        · have hf1 : (v.name == m) = false := by simp [hvm]
          simp only [List.find?, hf1]
          exact ih hrest hm

theorem updateVariables_ok_matched {n : List Char} {val : ℚ} :
    ∀ {vars vars' : List Variable},
      updateVariables n val vars = .ok (vars', true) →
      ∃ v', vars'.find? (fun v => v.name == n) = some v' ∧ v'.value = val := by
  intro vars
  induction vars with
  | nil => intro vars' h; simp only [updateVariables] at h; cases h
  | cons v rest ih =>
    intro vars' h
    simp only [updateVariables] at h
    by_cases hv : v.name = n
    · rw [if_pos (by simp [hv])] at h
      cases hst : v.setTo val with
      | error e => rw [hst] at h; cases h
      | ok v' =>
        rw [hst] at h
        cases hrest : updateVariables n val rest with
        | error p => rw [hrest] at h; cases h
        | ok p =>
          obtain ⟨rest', b'⟩ := p
          rw [hrest] at h
          cases h
          obtain ⟨-, hv'⟩ := Variable.setTo_ok hst
          have hf1 : (v'.name == n) = true := by simp [hv', hv]
          exact ⟨v', by simp only [List.find?, hf1], by simp [hv']⟩
    · rw [if_neg (by simp [hv])] at h
      cases hrest : updateVariables n val rest with
      | error p => rw [hrest] at h; cases h
      | ok p =>
        obtain ⟨rest', b'⟩ := p
        rw [hrest] at h
        cases h
        have hf1 : (v.name == n) = false := by simp [hv]
        obtain ⟨v', hfind, hval⟩ := ih hrest
        exact ⟨v', by simp only [List.find?, hf1]; exact hfind, hval⟩

theorem updateVariables_ok_unmatched {n : List Char} {val : ℚ} :
    ∀ {vars vars' : List Variable},
      updateVariables n val vars = .ok (vars', false) →
      vars' = vars ∧ vars.find? (fun v => v.name == n) = none := by
  intro vars
  induction vars with
  | nil => intro vars' h; simp only [updateVariables] at h; cases h; simp
  | cons v rest ih =>
    intro vars' h
    simp only [updateVariables] at h
    by_cases hv : v.name = n
    · rw [if_pos (by simp [hv])] at h
      cases hst : v.setTo val with
      | error e => rw [hst] at h; cases h
      | ok v' =>
        rw [hst] at h
        cases hrest : updateVariables n val rest with
        | error p => rw [hrest] at h; cases h
        | ok p =>
          obtain ⟨rest', b'⟩ := p
          rw [hrest] at h
          cases h
    · rw [if_neg (by simp [hv])] at h
      cases hrest : updateVariables n val rest with
      | error p => rw [hrest] at h; cases h
      | ok p =>
        obtain ⟨rest', b'⟩ := p
        rw [hrest] at h
        cases h
        obtain ⟨hrr, hfind⟩ := ih hrest
        have hf1 : (v.name == n) = false := by simp [hv]
        exact ⟨by rw [hrr], by simp only [List.find?, hf1]; exact hfind⟩

theorem updateVariables_ok_of_no_match {n : List Char} {val : ℚ} :
    ∀ {vars : List Variable}, (∀ v ∈ vars, v.name ≠ n) →
      updateVariables n val vars = .ok (vars, false) := by
  intro vars
  induction vars with
  | nil => intro _; simp [updateVariables]
  | cons v rest ih =>
    intro hno
    have hv : v.name ≠ n := hno v (by simp)
    simp only [updateVariables]
    rw [if_neg (by simp [hv])]
    rw [ih (fun w hw => hno w (by simp [hw]))]

theorem updateVariables_error_nodup {n : List Char} {val : ℚ} :
    ∀ {vars vars' : List Variable} {e : Err},
      (vars.map (fun v => v.name)).Nodup →
      updateVariables n val vars = .error (e, vars') → vars' = vars := by
  intro vars
  induction vars with
  | nil => intro vars' e _ h; simp only [updateVariables] at h; cases h
  | cons v rest ih =>
    intro vars' e hnd h
    simp only [List.map_cons, List.nodup_cons] at hnd
    obtain ⟨hvnot, hndrest⟩ := hnd
    simp only [updateVariables] at h
    by_cases hv : v.name = n
    · rw [if_pos (by simp [hv])] at h
      cases hst : v.setTo val with
      | error e' =>
        rw [hst] at h
        cases h
        rfl
      | ok v' =>
        rw [hst] at h
        have hnomatch : ∀ w ∈ rest, w.name ≠ n := by
          intro w hw hc
          exact hvnot (by rw [hv, ← hc]; exact List.mem_map_of_mem _ hw)
        rw [updateVariables_ok_of_no_match hnomatch] at h
        cases h
    · rw [if_neg (by simp [hv])] at h
      cases hrest : updateVariables n val rest with
      | error p =>
        obtain ⟨e', rest'⟩ := p
        rw [hrest] at h
        cases h
        rw [ih hndrest hrest]
      | ok p =>
        obtain ⟨rest', b'⟩ := p
        rw [hrest] at h
        cases h

theorem updateVariables_final_mem {n : List Char} {val : ℚ} :
    ∀ {vars vars' : List Variable} {b : Bool} {v' : Variable},
      updateVariables n val vars = .ok (vars', b) →
      v' ∈ vars' → v'.isFinal = true →
      ∃ v ∈ vars, v.name = v'.name ∧ v.isFinal = true := by
  intro vars
  induction vars with
  | nil => intro vars' b v' h hmem _; simp only [updateVariables] at h; cases h; cases hmem
  | cons v rest ih =>
    intro vars' b v' h hmem hfin
    simp only [updateVariables] at h
    by_cases hv : v.name = n
    · rw [if_pos (by simp [hv])] at h
      cases hst : v.setTo val with
      | error e => rw [hst] at h; cases h
      | ok w =>
        rw [hst] at h
        cases hrest : updateVariables n val rest with
        | error p => rw [hrest] at h; cases h
        | ok p =>
          obtain ⟨rest', b'⟩ := p
          rw [hrest] at h
          cases h
          rcases List.mem_cons.1 hmem with hh | ht
          · obtain ⟨hwf, hw⟩ := Variable.setTo_ok hst
            rw [hh, hw] at hfin
            simp at hfin
            rw [hwf] at hfin
            cases hfin
          · obtain ⟨u, hu, hun, huf⟩ := ih hrest ht hfin
            exact ⟨u, by simp [hu], hun, huf⟩
    · rw [if_neg (by simp [hv])] at h
      cases hrest : updateVariables n val rest with
      | error p => rw [hrest] at h; cases h
      | ok p =>
        obtain ⟨rest', b'⟩ := p
        rw [hrest] at h
        cases h
        rcases List.mem_cons.1 hmem with hh | ht
        · exact ⟨v, by simp, by rw [hh], by rw [← hh]; exact hfin⟩
        · obtain ⟨u, hu, hun, huf⟩ := ih hrest ht hfin
          exact ⟨u, by simp [hu], hun, huf⟩

theorem updateVariables_named_nonfinal {n : List Char} {val : ℚ} :
    ∀ {vars vars' : List Variable} {b : Bool} {v' : Variable},
      updateVariables n val vars = .ok (vars', b) →
      v' ∈ vars' → v'.name = n → v'.isFinal = false := by
  intro vars
  induction vars with
  | nil => intro vars' b v' h hmem _; simp only [updateVariables] at h; cases h; cases hmem
  | cons v rest ih =>
    intro vars' b v' h hmem hname
    simp only [updateVariables] at h
    by_cases hv : v.name = n
    · rw [if_pos (by simp [hv])] at h
      cases hst : v.setTo val with
      | error e => rw [hst] at h; cases h
      | ok w =>
        rw [hst] at h
        cases hrest : updateVariables n val rest with
        | error p => rw [hrest] at h; cases h
        | ok p =>
          obtain ⟨rest', b'⟩ := p
          rw [hrest] at h
          cases h
          rcases List.mem_cons.1 hmem with hh | ht
          · obtain ⟨hwf, hw⟩ := Variable.setTo_ok hst
            rw [hh, hw]
            simpa using hwf
          · exact ih hrest ht hname
    · rw [if_neg (by simp [hv])] at h
      cases hrest : updateVariables n val rest with
      | error p => rw [hrest] at h; cases h
      | ok p =>
        obtain ⟨rest', b'⟩ := p
        rw [hrest] at h
        cases h
        rcases List.mem_cons.1 hmem with hh | ht
        · exact absurd (hh ▸ hname) hv
        · exact ih hrest ht hname

theorem updateVariables_ok_of_nonfinal {n : List Char} {val : ℚ} :
    ∀ {vars : List Variable}, (∀ v ∈ vars, v.name = n → v.isFinal = false) →
      ∃ vars' b, updateVariables n val vars = .ok (vars', b) := by
  intro vars
  induction vars with
  | nil => intro _; exact ⟨[], false, rfl⟩
  | cons v rest ih =>
    intro hnf
    obtain ⟨rest', b', hrest⟩ := ih (fun w hw => hnf w (by simp [hw]))
    simp only [updateVariables]
    by_cases hv : v.name = n
    · have hvf : v.isFinal = false := hnf v (by simp) hv
      rw [if_pos (by simp [hv])]
      have hst : v.setTo val = .ok { v with value := val } := by
        unfold Variable.setTo
        rw [if_neg (by simp [hvf])]
      rw [hst, hrest]
      exact ⟨_, _, rfl⟩
    · rw [if_neg (by simp [hv])]
      rw [hrest]
      exact ⟨_, _, rfl⟩

theorem setSymbolNum_callables {t : SymbolsTable} {n : List Char} {val : ℚ}
    {t' : SymbolsTable} (h : t.setSymbolNum n val = .ok t') :
    t'.callables = t.callables := by
  unfold SymbolsTable.setSymbolNum at h
  cases hu : updateVariables n val t.vars with
  | error p => obtain ⟨e, vars'⟩ := p; rw [hu] at h; cases h
  | ok p =>
    obtain ⟨vars', b⟩ := p
    rw [hu] at h
    cases b <;> (cases h; rfl)

theorem setSymbolNum_val_self {t : SymbolsTable} {n : List Char} {val : ℚ}
    {t' : SymbolsTable} (h : t.setSymbolNum n val = .ok t') :
    getVariableVal t' n = some val := by
  unfold SymbolsTable.setSymbolNum at h
  cases hu : updateVariables n val t.vars with
  | error p => obtain ⟨e, vars'⟩ := p; rw [hu] at h; cases h
  | ok p =>
    obtain ⟨vars', b⟩ := p
    rw [hu] at h
    cases b with
    | true =>
      cases h
      obtain ⟨v', hfind, hval⟩ := updateVariables_ok_matched hu
      unfold getVariableVal SymbolsTable.getVariable
      rw [hfind]
      simp [hval]
    | false =>
      cases h
      obtain ⟨hsame, hnone⟩ := updateVariables_ok_unmatched hu
      unfold getVariableVal SymbolsTable.getVariable
      simp only [List.find?_append, hsame, hnone, Option.none_or]
      simp [List.find?]

theorem setSymbolNum_val_other {t : SymbolsTable} {n : List Char} {val : ℚ}
    {t' : SymbolsTable} {m : List Char} (h : t.setSymbolNum n val = .ok t')
    (hm : m ≠ n) : getVariableVal t' m = getVariableVal t m := by
  unfold SymbolsTable.setSymbolNum at h
  cases hu : updateVariables n val t.vars with
  | error p => obtain ⟨e, vars'⟩ := p; rw [hu] at h; cases h
  | ok p =>
    obtain ⟨vars', b⟩ := p
    rw [hu] at h
    have hfo := updateVariables_ok_find_other hu hm
    cases b with
    | true =>
      cases h
      unfold getVariableVal SymbolsTable.getVariable
      rw [hfo]
    | false =>
      cases h
      unfold getVariableVal SymbolsTable.getVariable
      have hnewf : ((⟨n, val, false⟩ : Variable).name == m) = false := by
        simp; exact fun hc => hm hc.symm
      simp only [List.find?_append, hfo, List.find?, hnewf, Option.or_none]

theorem setSymbolNum_error_nodup {t : SymbolsTable} {n : List Char} {val : ℚ}
    {e : Err} {t' : SymbolsTable}
    (hnd : (t.vars.map (fun v => v.name)).Nodup)
    (h : t.setSymbolNum n val = .error (e, t')) : t' = t := by
  unfold SymbolsTable.setSymbolNum at h
  cases hu : updateVariables n val t.vars with
  | ok p =>
    obtain ⟨vars', b⟩ := p
    rw [hu] at h
    cases b <;> cases h
  | error p =>
    obtain ⟨e', vars'⟩ := p
    rw [hu] at h
    cases h
    have := updateVariables_error_nodup hnd hu
    cases t
    simp only [SymbolsTable.mk.injEq]
    exact ⟨this, trivial⟩

theorem setSymbolNum_named_nonfinal {t : SymbolsTable} {n : List Char} {val : ℚ}
    {t' : SymbolsTable} (h : t.setSymbolNum n val = .ok t') :
    ∀ w ∈ t'.vars, w.name = n → w.isFinal = false := by
  unfold SymbolsTable.setSymbolNum at h
  cases hu : updateVariables n val t.vars with
  | error p => obtain ⟨e, vars'⟩ := p; rw [hu] at h; cases h
  | ok p =>
    obtain ⟨vars', b⟩ := p
    rw [hu] at h
    cases b with
    | true =>
      cases h
      exact fun w hw => updateVariables_named_nonfinal hu hw
    | false =>
      cases h
      intro w hw hwn
      rcases List.mem_append.1 hw with hl | hr
      · exact updateVariables_named_nonfinal hu hl hwn
      · simp only [List.mem_singleton] at hr
        rw [hr]

theorem setSymbolNum_pres_nonfinal {t : SymbolsTable} {n : List Char} {val : ℚ}
    {t' : SymbolsTable} {m : List Char} (h : t.setSymbolNum n val = .ok t')
    (hnf : ∀ w ∈ t.vars, w.name = m → w.isFinal = false) :
    ∀ w ∈ t'.vars, w.name = m → w.isFinal = false := by
  unfold SymbolsTable.setSymbolNum at h
  cases hu : updateVariables n val t.vars with
  | error p => obtain ⟨e, vars'⟩ := p; rw [hu] at h; cases h
  | ok p =>
    obtain ⟨vars', b⟩ := p
    rw [hu] at h
    have main : ∀ w ∈ vars', w.name = m → w.isFinal = false := by
      intro w hw hwm
      by_cases hwf : w.isFinal = true
      · obtain ⟨u, hu2, hun, huf⟩ := updateVariables_final_mem hu hw hwf
        rw [hnf u hu2 (by rw [hun, hwm])] at huf
        cases huf
      · simpa using hwf
    cases b with
    | true => cases h; exact main
    | false =>
      cases h
      intro w hw hwm
      rcases List.mem_append.1 hw with hl | hr
      · exact main w hl hwm
      · simp only [List.mem_singleton] at hr
        rw [hr]

theorem setSymbolNum_ok_of_nonfinal {t : SymbolsTable} {n : List Char} {val : ℚ}
    (hnf : ∀ w ∈ t.vars, w.name = n → w.isFinal = false) :
    ∃ t', t.setSymbolNum n val = .ok t' := by
  obtain ⟨vars', b, hu⟩ := updateVariables_ok_of_nonfinal hnf
  unfold SymbolsTable.setSymbolNum
  rw [hu]
  cases b
  · exact ⟨_, rfl⟩
  · exact ⟨_, rfl⟩

/-! ## Evaluation lemmas

The only table write during expression evaluation is `setSymbol("x", ...)`
inside `FunctionCallExpression.eval`, so evaluation preserves the callables
and every variable lookup other than `x`; call-free expressions do not
touch the table at all, and their value only depends on the lookups they
perform. -/

theorem evalExpr_preserves :
    ∀ (fuel : Nat) {e : Expression} {t : SymbolsTable} {v : ℚ} {t' : SymbolsTable},
      evalExpr fuel e t = .ok v t' →
      t'.callables = t.callables ∧
        ∀ n, n ≠ xName → getVariableVal t' n = getVariableVal t n := by
  intro fuel
  induction fuel with
  | zero => intro e t v t' h; cases h
  | succ m ih =>
    intro e t v t' h
    cases e with
    | constantExpr c =>
      simp only [evalExpr] at h
      cases h
      exact ⟨rfl, fun _ _ => rfl⟩
    | variableExpr name =>
      simp only [evalExpr] at h
      cases hg : t.getVariable name with
      | ok w => rw [hg] at h; cases h; exact ⟨rfl, fun _ _ => rfl⟩
      | error e1 => rw [hg] at h; cases h
    | variableTokenExpr tok =>
      simp only [evalExpr] at h
      cases h
    | factorialExpr operand =>
      simp only [evalExpr] at h
      cases hop : evalExpr m operand t with
      | ok v1 t1 => rw [hop] at h; cases h; exact ih hop
      | err e1 t1 => rw [hop] at h; cases h
      | timeout => rw [hop] at h; cases h
    | binaryExpr op left right =>
      simp only [evalExpr] at h
      cases hl : evalExpr m left t with
      | err e1 t1 => rw [hl] at h; cases h
      | timeout => rw [hl] at h; cases h
      | ok lv t1 =>
        rw [hl] at h
        dsimp only at h
        cases hr : evalExpr m right t1 with
        | err e2 t2 => rw [hr] at h; cases h
        | timeout => rw [hr] at h; cases h
        | ok rv t2 =>
          rw [hr] at h
          dsimp only at h
          cases hab : applyBinaryOperator op lv rv with
          | error e3 => rw [hab] at h; cases h
          | ok w =>
            rw [hab] at h
            cases h
            obtain ⟨hc1, hv1⟩ := ih hl
            obtain ⟨hc2, hv2⟩ := ih hr
            exact ⟨hc2.trans hc1, fun n hn => (hv2 n hn).trans (hv1 n hn)⟩
    | functionCallExpr functionName argument =>
      simp only [evalExpr] at h
      cases ha : evalExpr m argument t with
      | err e1 t1 => rw [ha] at h; cases h
      | timeout => rw [ha] at h; cases h
      | ok av t1 =>
        rw [ha] at h
        dsimp only at h
        cases hs : t1.setSymbolNum xName av with
        | error p => obtain ⟨e2, t2⟩ := p; rw [hs] at h; cases h
        | ok t2 =>
          rw [hs] at h
          dsimp only at h
          cases hg : t2.getCallable functionName with
          | error e3 => rw [hg] at h; cases h
          | ok c =>
            rw [hg] at h
            dsimp only at h
            obtain ⟨hc1, hv1⟩ := ih ha
            obtain ⟨hc3, hv3⟩ := ih h
            refine ⟨hc3.trans ((setSymbolNum_callables hs).trans hc1), fun n hn => ?_⟩
            exact ((hv3 n hn).trans (setSymbolNum_val_other hs hn)).trans (hv1 n hn)
    | builtinExpr tag =>
      simp only [evalExpr] at h
      cases h

theorem evalExpr_noCall_pure :
    ∀ {e : Expression}, noCallNoHistory e = true →
      ∀ {fuel : Nat} {t : SymbolsTable} {v : ℚ} {t' : SymbolsTable},
        evalExpr fuel e t = .ok v t' → t' = t := by
  intro e
  induction e with
  | constantExpr c =>
    intro _ fuel t v t' h
    cases fuel with
    | zero => cases h
    | succ m => simp only [evalExpr] at h; cases h; rfl
  | variableExpr name =>
    intro _ fuel t v t' h
    cases fuel with
    | zero => cases h
    | succ m =>
      simp only [evalExpr] at h
      cases hg : t.getVariable name with
      | ok w => rw [hg] at h; cases h; rfl
      | error e1 => rw [hg] at h; cases h
  | variableTokenExpr tok =>
    intro _ fuel t v t' h
    cases fuel with
    | zero => cases h
    | succ m => simp only [evalExpr] at h; cases h
  | factorialExpr operand ihop =>
    intro hnc fuel t v t' h
    cases fuel with
    | zero => cases h
    | succ m =>
      simp only [evalExpr] at h
      cases hop : evalExpr m operand t with
      | ok v1 t1 => rw [hop] at h; cases h; exact ihop hnc hop
      | err e1 t1 => rw [hop] at h; cases h
      | timeout => rw [hop] at h; cases h
  | binaryExpr op left right ihl ihr =>
    intro hnc fuel t v t' h
    simp only [noCallNoHistory, Bool.and_eq_true] at hnc
    cases fuel with
    | zero => cases h
    | succ m =>
      simp only [evalExpr] at h
      cases hl : evalExpr m left t with
      | err e1 t1 => rw [hl] at h; cases h
      | timeout => rw [hl] at h; cases h
      | ok lv t1 =>
        rw [hl] at h
        dsimp only at h
        cases hr : evalExpr m right t1 with
        | err e2 t2 => rw [hr] at h; cases h
        | timeout => rw [hr] at h; cases h
        | ok rv t2 =>
          rw [hr] at h
          dsimp only at h
          cases hab : applyBinaryOperator op lv rv with
          | error e3 => rw [hab] at h; cases h
          | ok w =>
            rw [hab] at h
            cases h
            rw [ihr hnc.2 hr, ihl hnc.1 hl]
  | functionCallExpr functionName argument ih =>
    intro hnc
    simp [noCallNoHistory] at hnc
  | builtinExpr tag =>
    intro hnc
    simp [noCallNoHistory] at hnc

theorem evalExpr_noCall_congr :
    ∀ {e : Expression}, noCallNoHistory e = true →
      ∀ {t₁ t₂ : SymbolsTable},
        (∀ n, n ≠ "ans".data → n ≠ "preans".data →
          getVariableVal t₂ n = getVariableVal t₁ n) →
        ∀ {fuel : Nat} {v : ℚ} {t₁' : SymbolsTable},
          evalExpr fuel e t₁ = .ok v t₁' → evalExpr fuel e t₂ = .ok v t₂ := by
  intro e
  induction e with
  | constantExpr c =>
    intro _ t₁ t₂ _ fuel v t₁' h
    cases fuel with
    | zero => cases h
    | succ m => simp only [evalExpr] at h ⊢; cases h; rfl
  | variableExpr name =>
    intro hnc t₁ t₂ hagree fuel v t₁' h
    simp only [noCallNoHistory, Bool.and_eq_true, Bool.not_eq_eq_eq_not,
      Bool.not_true, beq_eq_false_iff_ne, ne_eq] at hnc
    cases fuel with
    | zero => cases h
    | succ m =>
      simp only [evalExpr] at h ⊢
      cases hg : t₁.getVariable name with
      | error e1 => rw [hg] at h; cases h
      | ok w =>
        rw [hg] at h
        cases h
        have h1 : getVariableVal t₁ name = some w.value := by
          unfold getVariableVal
          rw [hg]
        have h2 : getVariableVal t₂ name = some w.value := by
          rw [hagree name hnc.1 hnc.2]
          exact h1
        unfold getVariableVal at h2
        cases hg2 : t₂.getVariable name with
        | error e2 => rw [hg2] at h2; cases h2
        | ok w2 =>
          rw [hg2] at h2
          simp only [Option.some.injEq] at h2
          dsimp only
          rw [h2]
  | variableTokenExpr tok =>
    intro _ t₁ t₂ _ fuel v t₁' h
    cases fuel with
    | zero => cases h
    | succ m => simp only [evalExpr] at h; cases h
  | factorialExpr operand ihop =>
    intro hnc t₁ t₂ hagree fuel v t₁' h
    cases fuel with
    | zero => cases h
    | succ m =>
      simp only [evalExpr] at h ⊢
      cases hop : evalExpr m operand t₁ with
      | err e1 t1 => rw [hop] at h; cases h
      | timeout => rw [hop] at h; cases h
      | ok v1 t1 =>
        rw [hop] at h
        dsimp only at h
        cases h
        rw [ihop hnc hagree hop]
  | binaryExpr op left right ihl ihr =>
    intro hnc t₁ t₂ hagree fuel v t₁' h
    simp only [noCallNoHistory, Bool.and_eq_true] at hnc
    cases fuel with
    | zero => cases h
    | succ m =>
      simp only [evalExpr] at h ⊢
      cases hl : evalExpr m left t₁ with
      | err e1 t1 => rw [hl] at h; cases h
      | timeout => rw [hl] at h; cases h
      | ok lv t1 =>
        rw [hl] at h
        dsimp only at h
        have ht1 : t1 = t₁ := evalExpr_noCall_pure hnc.1 hl
        rw [ht1] at h
        cases hr : evalExpr m right t₁ with
        | err e2 t2 => rw [hr] at h; cases h
        | timeout => rw [hr] at h; cases h
        | ok rv t2 =>
          rw [hr] at h
          dsimp only at h
          cases hab : applyBinaryOperator op lv rv with
          | error e3 => rw [hab] at h; cases h
          | ok w =>
            rw [hab] at h
            cases h
            rw [ihl hnc.1 hagree hl]
            dsimp only
            rw [ihr hnc.2 hagree hr]
            dsimp only
            rw [hab]
  | functionCallExpr functionName argument ih =>
    intro hnc
    simp [noCallNoHistory] at hnc
  | builtinExpr tag =>
    intro hnc
    simp [noCallNoHistory] at hnc

/-! ## Tokeniser budget lemmas

Every matched token consumes at least one character of the remaining
input, so the tokenise loop runs at most `input.length` times: any budget
above `input.length` computes the same token list, which justifies the
`input.length + 1` budget baked into `tokenise`. -/

theorem length_takeWhile_le (p : Char → Bool) :
    ∀ l : List Char, (l.takeWhile p).length ≤ l.length := by
  intro l
  induction l with
  | nil => simp [List.takeWhile]
  | cons c rest ih =>
    simp only [List.takeWhile]
    cases p c
    · simp
    · simpa using Nat.succ_le_succ ih

theorem length_dropWhile_le (p : Char → Bool) :
    ∀ l : List Char, (l.dropWhile p).length ≤ l.length := by
  intro l
  induction l with
  | nil => simp [List.dropWhile]
  | cons c rest ih =>
    simp only [List.dropWhile]
    cases p c
    · simp
    · simpa using Nat.le_succ_of_le ih

theorem trimChars_length_le (l : List Char) : (trimChars l).length ≤ l.length := by
  unfold trimChars
  calc ((l.dropWhile Char.isWhitespace).reverse.dropWhile Char.isWhitespace).reverse.length
      = ((l.dropWhile Char.isWhitespace).reverse.dropWhile Char.isWhitespace).length := by
        rw [List.length_reverse]
    _ ≤ (l.dropWhile Char.isWhitespace).reverse.length := length_dropWhile_le _ _
    _ = (l.dropWhile Char.isWhitespace).length := by rw [List.length_reverse]
    _ ≤ l.length := length_dropWhile_le _ _

theorem matchNumberText_length {input text : List Char}
    (h : matchNumberText input = some text) :
    1 ≤ text.length ∧ 1 ≤ input.length := by
  unfold matchNumberText at h
  by_cases hds : (input.takeWhile Char.isDigit).isEmpty
  · rw [if_pos hds] at h; cases h
  · rw [if_neg hds] at h
    have hlen : 1 ≤ (input.takeWhile Char.isDigit).length := by
      cases hq : input.takeWhile Char.isDigit with
      | nil => rw [hq] at hds; simp at hds
      | cons a b => simp
    have hinput : 1 ≤ input.length := by
      have := length_takeWhile_le Char.isDigit input
      omega
    refine ⟨?_, hinput⟩
    cases hdrop : input.drop (input.takeWhile Char.isDigit).length with
    | nil => rw [hdrop] at h; cases h; exact hlen
    | cons c r2 =>
      rw [hdrop] at h
      dsimp only at h
      by_cases hc : c = '.'
      · rw [if_pos hc] at h
        by_cases hfrac : (r2.takeWhile Char.isDigit).isEmpty
        · rw [if_pos hfrac] at h; cases h; exact hlen
        · rw [if_neg hfrac] at h
          cases h
          simp only [List.length_append]
          omega
      · rw [if_neg hc] at h
        cases h
        exact hlen

theorem nextMatchingToken_rest_length {input : List Char} {fns : List (List Char)}
    {tok : Token} {rest : List Char}
    (h : nextMatchingToken input fns = .ok (some (tok, rest))) :
    rest.length < input.length := by
  unfold nextMatchingToken at h
  cases hnum : matchNumberText input with
  | some text =>
    rw [hnum] at h
    dsimp only at h
    cases h
    obtain ⟨htext, hinput⟩ := matchNumberText_length hnum
    have h1 := trimChars_length_le (input.drop text.length)
    have h2 := List.length_drop text.length input
    omega
  | none =>
    rw [hnum] at h
    dsimp only at h
    by_cases hls : (input.takeWhile Char.isLower).isEmpty
    · rw [if_neg (by simp [hls])] at h
      cases hin : input with
      | nil => rw [hin] at h; cases h
      | cons c r =>
        rw [hin] at h
        dsimp only at h
        have hrest : ∀ ty : TokType, (Except.ok (some (mkToken [c] ty, trimChars r)) :
            Except Err (Option (Token × List Char))) = .ok (some (tok, rest)) →
            rest.length < (c :: r).length := by
          intro ty hh
          cases hh
          have := trimChars_length_le r
          simp only [List.length_cons]
          omega
        by_cases h1 : c = '(';  · rw [if_pos h1] at h; exact hrest _ h
        rw [if_neg h1] at h
        by_cases h2 : c = ')';  · rw [if_pos h2] at h; exact hrest _ h
        rw [if_neg h2] at h
        by_cases h3 : c = '+';  · rw [if_pos h3] at h; exact hrest _ h
        rw [if_neg h3] at h
        by_cases h4 : c = '-';  · rw [if_pos h4] at h; exact hrest _ h
        rw [if_neg h4] at h
        by_cases h5 : c = '*';  · rw [if_pos h5] at h; exact hrest _ h
        rw [if_neg h5] at h
        by_cases h6 : c = '/';  · rw [if_pos h6] at h; exact hrest _ h
        rw [if_neg h6] at h
        by_cases h7 : c = '!';  · rw [if_pos h7] at h; exact hrest _ h
        rw [if_neg h7] at h
        by_cases h8 : c = '^';  · rw [if_pos h8] at h; exact hrest _ h
        rw [if_neg h8] at h
        by_cases h9 : c = 'E';  · rw [if_pos h9] at h; exact hrest _ h
        rw [if_neg h9] at h
        cases h
    · rw [if_pos (by simp [hls])] at h
      cases h
      have hlen : 1 ≤ (input.takeWhile Char.isLower).length := by
        cases hq : input.takeWhile Char.isLower with
        | nil => rw [hq] at hls; simp at hls
        | cons a b => simp
      have hinput : 1 ≤ input.length := by
        have := length_takeWhile_le Char.isLower input
        omega
      have h1 := trimChars_length_le (input.drop (input.takeWhile Char.isLower).length)
      have h2 := List.length_drop (input.takeWhile Char.isLower).length input
      omega

theorem tokeniseSteps_stable {fns : List (List Char)} :
    ∀ (fuel₁ : Nat) (fuel₂ : Nat) (input : List Char),
      input.length < fuel₁ → input.length < fuel₂ →
      tokeniseSteps fuel₁ input fns = tokeniseSteps fuel₂ input fns := by
  intro fuel₁
  induction fuel₁ with
  | zero => intro fuel₂ input h1 _; omega
  | succ m ih =>
    intro fuel₂ input h1 h2
    cases fuel₂ with
    | zero => omega
    | succ k =>
      simp only [tokeniseSteps]
      cases hn : nextMatchingToken input fns with
      | error e => rfl
      | ok o =>
        cases o with
        | none => rfl
        | some p =>
          obtain ⟨tok, rest⟩ := p
          have hlt := nextMatchingToken_rest_length hn
          dsimp only
          rw [ih k rest (by omega) (by omega)]

/-! ## Engine-level lemmas -/

theorem evalString_preserves {parserFuel evalFuel : Nat} {t : SymbolsTable}
    {text : List Char} {v : ℚ} {t1 : SymbolsTable}
    (h : evalString parserFuel evalFuel t text = .ok v t1) :
    t1.callables = t.callables ∧
      ∀ n, n ≠ xName → getVariableVal t1 n = getVariableVal t n := by
  simp only [evalString] at h
  cases htok : tokenise text (t.callables.map fun c => c.name) with
  | error e => rw [htok] at h; cases h
  | ok tokens =>
    rw [htok] at h
    dsimp only at h
    cases hp : parse parserFuel 0 tokens with
    | err e => rw [hp] at h; cases h
    | timeout => rw [hp] at h; cases h
    | ok o =>
      cases o with
      | none => rw [hp] at h; cases h
      | some r =>
        rw [hp] at h
        dsimp only at h
        exact evalExpr_preserves evalFuel h

theorem evalString_eq_evalExpr {parserFuel : Nat} {t : SymbolsTable}
    {text : List Char} {e : Expression}
    (hge : getExpression parserFuel t text = .ok e) (evalFuel : Nat) :
    evalString parserFuel evalFuel t text = evalExpr evalFuel e t := by
  simp only [getExpression] at hge
  simp only [evalString]
  cases htok : tokenise text (t.callables.map fun c => c.name) with
  | error e1 => rw [htok] at hge; cases hge
  | ok tokens =>
    rw [htok] at hge
    dsimp only at hge
    cases hp : parse parserFuel 0 tokens with
    | err e1 => rw [hp] at hge; cases hge
    | timeout => rw [hp] at hge; cases hge
    | ok o =>
      cases o with
      | none => rw [hp] at hge; cases hge
      | some r =>
        rw [hp] at hge
        dsimp only at hge
        cases hge
        dsimp only
        rw [hp]

theorem getExpression_congr {parserFuel : Nat} {t t' : SymbolsTable}
    {text : List Char} (hc : t'.callables = t.callables) :
    getExpression parserFuel t' text = getExpression parserFuel t text := by
  simp only [getExpression, hc]

/-- C4's general content: a successful plain (no `=`) `run` leaves `ans`
holding the returned value and `preans` holding the `ans` value from before
the call. -/
theorem run_plain_history {parserFuel evalFuel : Nat} {t : SymbolsTable}
    {text : List Char} {r : ℚ} {t' : SymbolsTable}
    (hne : text.contains '=' = false)
    (hrun : run parserFuel evalFuel t text = .ok r t') :
    getVariableVal t' ("ans".data) = some r ∧
      getVariableVal t' ("preans".data) = getVariableVal t ("ans".data) := by
  simp only [run, hne, Bool.false_eq_true, if_false] at hrun
  cases hes : evalString parserFuel evalFuel t text with
  | err e t1 => rw [hes] at hrun; cases hrun
  | timeout => rw [hes] at hrun; cases hrun
  | ok ret t1 =>
    rw [hes] at hrun
    dsimp only at hrun
    cases hga : t1.getVariable ("ans".data) with
    | error e => rw [hga] at hrun; cases hrun
    | ok ansVar =>
      rw [hga] at hrun
      dsimp only at hrun
      cases hsp : t1.setSymbolNum ("preans".data) ansVar.value with
      | error p => obtain ⟨e, t2⟩ := p; rw [hsp] at hrun; cases hrun
      | ok t2 =>
        rw [hsp] at hrun
        dsimp only at hrun
        cases hsa : t2.setSymbolNum ("ans".data) ret with
        | error p => obtain ⟨e, t3⟩ := p; rw [hsa] at hrun; cases hrun
        | ok t3 =>
          rw [hsa] at hrun
          cases hrun
          constructor
          · exact setSymbolNum_val_self hsa
          · have hdiff : ("preans".data : List Char) ≠ "ans".data := by decide
            rw [setSymbolNum_val_other hsa hdiff, setSymbolNum_val_self hsp]
            have hax : ("ans".data : List Char) ≠ xName := by decide
            have hpres := (evalString_preserves hes).2 ("ans".data) hax
            have h1 : getVariableVal t1 ("ans".data) = some ansVar.value := by
              unfold getVariableVal
              rw [hga]
            rw [h1] at hpres
            exact hpres

/-- C3's amended content: a successful plain query whose parsed expression
makes no function call and never reads `ans`/`preans` returns the same
value when re-run immediately. -/
theorem run_plain_idempotent {parserFuel evalFuel : Nat} {t : SymbolsTable}
    {text : List Char} {e : Expression} {r : ℚ} {t₁ : SymbolsTable}
    (hne : text.contains '=' = false)
    (hge : getExpression parserFuel t text = .ok e)
    (hnc : noCallNoHistory e = true)
    (hrun : run parserFuel evalFuel t text = .ok r t₁) :
    (run parserFuel evalFuel t₁ text).val = some r := by
  simp only [run, hne, Bool.false_eq_true, if_false] at hrun ⊢
  rw [evalString_eq_evalExpr hge evalFuel] at hrun
  cases hes : evalExpr evalFuel e t with
  | err e1 t1 => rw [hes] at hrun; cases hrun
  | timeout => rw [hes] at hrun; cases hrun
  | ok ret tE =>
    rw [hes] at hrun
    dsimp only at hrun
    have htE : tE = t := evalExpr_noCall_pure hnc hes
    rw [htE] at hes hrun
    cases hga : t.getVariable ("ans".data) with
    | error e1 => rw [hga] at hrun; cases hrun
    | ok ansVar =>
      rw [hga] at hrun
      dsimp only at hrun
      cases hsp : t.setSymbolNum ("preans".data) ansVar.value with
      | error p => obtain ⟨e1, t2⟩ := p; rw [hsp] at hrun; cases hrun
      | ok t2 =>
        rw [hsp] at hrun
        dsimp only at hrun
        cases hsa : t2.setSymbolNum ("ans".data) ret with
        | error p => obtain ⟨e1, t3⟩ := p; rw [hsa] at hrun; cases hrun
        | ok t3 =>
          rw [hsa] at hrun
          cases hrun
          -- the second run
          have hcal : t₁.callables = t.callables :=
            (setSymbolNum_callables hsa).trans (setSymbolNum_callables hsp)
          have hagree : ∀ n, n ≠ "ans".data → n ≠ "preans".data →
              getVariableVal t₁ n = getVariableVal t n := by
            intro n hna hnp
            rw [setSymbolNum_val_other hsa hna, setSymbolNum_val_other hsp hnp]
          have hge₁ : getExpression parserFuel t₁ text = .ok e := by
            rw [getExpression_congr hcal]
            exact hge
          rw [evalString_eq_evalExpr hge₁ evalFuel]
          have hes₁ : evalExpr evalFuel e t₁ = .ok r t₁ :=
            evalExpr_noCall_congr hnc hagree hes
          rw [hes₁]
          dsimp only
          -- ans lookup in t₁ succeeds with value r
          have hval : getVariableVal t₁ ("ans".data) = some r := setSymbolNum_val_self hsa
          unfold getVariableVal at hval
          cases hga₁ : t₁.getVariable ("ans".data) with
          | error e1 => rw [hga₁] at hval; cases hval
          | ok w =>
            rw [hga₁] at hval
            simp only [Option.some.injEq] at hval
            dsimp only
            -- the two history writes succeed: those entries stayed non-final
            have hnfp : ∀ w ∈ t₁.vars, w.name = "preans".data → w.isFinal = false :=
              setSymbolNum_pres_nonfinal hsa (setSymbolNum_named_nonfinal hsp)
            obtain ⟨t2', hsp'⟩ := @setSymbolNum_ok_of_nonfinal t₁ ("preans".data) w.value hnfp
            rw [hsp']
            dsimp only
            have hnfa : ∀ u ∈ t2'.vars, u.name = "ans".data → u.isFinal = false :=
              setSymbolNum_pres_nonfinal hsp' (setSymbolNum_named_nonfinal hsa)
            obtain ⟨t3', hsa'⟩ := @setSymbolNum_ok_of_nonfinal t2' ("ans".data) r hnfa
            rw [hsa']
            simp [Outcome.val]

/-! ## Factorial lemmas

The `factorialise` recursion subtracts 1 until the value is negative or
exactly zero, so it completes within any budget that bounds the value from
above.  For positive non-integers it passes 0 without hitting it, lands in
the negative base case, and returns a negative (sentinel-tainted)
product. -/

theorem factSteps_total :
    ∀ (n : Nat) (v : ℚ), v ≤ (n : ℚ) → ∃ r, factSteps n v = some r := by
  intro n
  induction n with
  | zero =>
    intro v hv
    by_cases hneg : v < 0
    · exact ⟨-1, by simp only [factSteps, if_pos hneg]⟩
    · have hz : v = 0 := le_antisymm (by exact_mod_cast hv) (not_lt.1 hneg)
      exact ⟨1, by simp only [factSteps, if_neg hneg, if_pos hz]⟩
  | succ m ih =>
    intro v hv
    by_cases hneg : v < 0
    · exact ⟨-1, by simp only [factSteps, if_pos hneg]⟩
    · by_cases hz : v = 0
      · exact ⟨1, by simp only [factSteps, if_neg hneg, if_pos hz]⟩
      · have hv1 : v - 1 ≤ (m : ℚ) := by push_cast at hv ⊢; linarith
        obtain ⟨r, hr⟩ := ih (v - 1) hv1
        refine ⟨r * v, ?_⟩
        simp only [factSteps, if_neg hneg, if_neg hz, hr]
        rfl

theorem rat_le_num_toNat (v : ℚ) : v ≤ (v.num.toNat : ℚ) := by
  rcases lt_or_le v.num 0 with hn | hn
  · have hv : v < 0 := Rat.num_neg.1 hn
    exact le_trans hv.le (by positivity)
  · have h1 : v ≤ (v.num : ℚ) := by
      conv_lhs => rw [← Rat.num_div_den v]
      apply div_le_self
      · exact_mod_cast hn
      · exact_mod_cast v.den_pos
    have h2 : (v.num : ℚ) ≤ (v.num.toNat : ℚ) := by
      exact_mod_cast Int.self_le_toNat v.num
    exact h1.trans h2

theorem factSteps_budget_some (v : ℚ) : ∃ r, factSteps (factBudget v) v = some r :=
  factSteps_total (factBudget v) v (rat_le_num_toNat v)

theorem nonint_sub_one {v : ℚ} (hden : v.den ≠ 1) : (v - 1).den ≠ 1 := by
  intro h1
  apply hden
  have hm : (((v - 1).num : ℚ)) = v - 1 := (Rat.den_eq_one_iff _).1 h1
  have hv : v = (((v - 1).num + 1 : ℤ) : ℚ) := by push_cast [hm]; ring
  rw [hv, Rat.den_intCast]

theorem factSteps_neg_of_nonint :
    ∀ (n : Nat) {v : ℚ} {r : ℚ}, v.den ≠ 1 → factSteps n v = some r → r < 0 := by
  intro n
  induction n with
  | zero =>
    intro v r hden h
    by_cases hneg : v < 0
    · simp only [factSteps, if_pos hneg, Option.some.injEq] at h
      rw [← h]; norm_num
    · by_cases hz : v = 0
      · exact absurd (hz ▸ Rat.den_zero) hden
      · simp only [factSteps, if_neg hneg, if_neg hz] at h
        cases h
  | succ m ih =>
    intro v r hden h
    by_cases hneg : v < 0
    · simp only [factSteps, if_pos hneg, Option.some.injEq] at h
      rw [← h]; norm_num
    · by_cases hz : v = 0
      · exact absurd (hz ▸ Rat.den_zero) hden
      · simp only [factSteps, if_neg hneg, if_neg hz] at h
        cases hr : factSteps m (v - 1) with
        | none => rw [hr] at h; cases h
        | some r' =>
          rw [hr] at h
          have h : r' * v = r := by
            have := h
            simp only [Option.map] at this
            exact Option.some.inj this
          have hr' : r' < 0 := ih (nonint_sub_one hden) hr
          have hpos : 0 < v := lt_of_le_of_ne (not_lt.1 hneg) (Ne.symm hz)
          rw [← h]
          exact mul_neg_of_neg_of_pos hr' hpos

/-! ## Assignment-route lemmas -/

theorem handleAssignment_ok_zero {parserFuel evalFuel : Nat} {t : SymbolsTable}
    {left right : List Char} {v : ℚ} {t' : SymbolsTable}
    (h : handleAssignment parserFuel evalFuel t left right = .ok v t') : v = 0 := by
  simp only [handleAssignment] at h
  by_cases hf : isFuncDefPattern left = true
  · rw [if_pos hf] at h
    cases hge : getExpression parserFuel t right with
    | err e => rw [hge] at h; cases h
    | timeout => rw [hge] at h; cases h
    | ok expression =>
      rw [hge] at h
      dsimp only at h
      cases hs : t.setSymbolExpr (funcNameOf left) expression with
      | error p => obtain ⟨e, t2⟩ := p; rw [hs] at h; cases h
      | ok t2 =>
        rw [hs] at h
        cases h
        rfl
  · rw [if_neg hf] at h
    by_cases hv : isVarNamePattern left = true
    · rw [if_pos hv] at h
      cases hes : evalString parserFuel evalFuel t right with
      | err e t1 => rw [hes] at h; cases h
      | timeout => rw [hes] at h; cases h
      | ok value t1 =>
        rw [hes] at h
        dsimp only at h
        cases hs : t1.setSymbolNum left value with
        | error p => obtain ⟨e, t2⟩ := p; rw [hs] at h; cases h
        | ok t2 =>
          rw [hs] at h
          cases h
          rfl
    · rw [if_neg hv] at h
      cases h

theorem handleAssignment_unknown {parserFuel evalFuel : Nat} {t : SymbolsTable}
    {left right : List Char}
    (hf : ¬ isFuncDefPattern left = true) (hv : ¬ isVarNamePattern left = true) :
    handleAssignment parserFuel evalFuel t left right = .err .unknownAssignment t := by
  simp only [handleAssignment]
  rw [if_neg hf, if_neg hv]

/-! ## The claims -/

/-- C1, counterexample: the claim says `run("2^3^2")` returns 64, evaluated
left-to-right as `(2^3)^2`.  The code compares precedences strictly
(`hasHigherPrecedenceThan`), so the equal-precedence `^` chain recurses
fully on the remainder and evaluates right-associatively:
`2^(3^2) = 512 ≠ 64`. -/
theorem spec_C1_counterexample :
    (run 64 64 getDefaultSymbolsTable ("2^3^2".data)).val = some 512 ∧
      (run 64 64 getDefaultSymbolsTable ("2^3^2".data)).val ≠ some 64 := by
  have h : (run 64 64 getDefaultSymbolsTable ("2^3^2".data)).val = some 512 := by
    with_unfolding_all rfl
  refine ⟨h, ?_⟩
  rw [h]
  intro hc
  have h64 := Option.some.inj hc
  norm_num at h64

/-- C1, amended: `run("2+3*4")` returns 14 and `run("(2+3)*4")` returns 20
as claimed; `run("2^3^2")` however evaluates right-associatively (equal
precedence triggers full recursion on the remainder) and returns
`2^(3^2) = 512`, not 64. -/
theorem spec_C1 :
    (run 64 64 getDefaultSymbolsTable ("2+3*4".data)).val = some 14 ∧
      (run 64 64 getDefaultSymbolsTable ("(2+3)*4".data)).val = some 20 ∧
      (run 64 64 getDefaultSymbolsTable ("2^3^2".data)).val = some 512 := by
  refine ⟨?_, ?_, ?_⟩ <;> with_unfolding_all rfl

/-- C2, counterexample: the claim says `run` splits on the *first*
occurrence of `=`, which on `"a=1=2"` would make the right part `"1=2"`
and fail tokenising it (no matcher accepts `=`); the code instead uses
`split("=")[0]`/`[1]`, evaluates `"1"`, and succeeds with 0. -/
theorem spec_C2_counterexample :
    (run 64 64 getDefaultSymbolsTable ("a=1=2".data)).val = some 0 ∧
      (runFirstSplit 64 64 getDefaultSymbolsTable ("a=1=2".data)).errOf =
        some .unknownTokens := by
  constructor
  · with_unfolding_all rfl
  · with_unfolding_all rfl

/-- C2, amended: when the input contains `=`, `run` splits on *every* `=`
and uses the first two segments as left and right (content after a second
`=` is discarded); a function-definition left side stores the parsed right
side, a variable left side stores the evaluated right side, any other left
side fails with "unknown assignment", and every successful assignment
returns 0.  Demonstrated by `"a=1=2"` assigning `a := 1`. -/
theorem spec_C2 :
    (∀ parserFuel evalFuel : Nat, ∀ t : SymbolsTable, ∀ l r : List Char,
      ∀ v : ℚ, ∀ t' : SymbolsTable,
      handleAssignment parserFuel evalFuel t l r = .ok v t' → v = 0) ∧
    (∀ parserFuel evalFuel : Nat, ∀ t : SymbolsTable, ∀ l r : List Char,
      isFuncDefPattern l = false → isVarNamePattern l = false →
      handleAssignment parserFuel evalFuel t l r = .err .unknownAssignment t) ∧
    splitOnChar '=' ("a=1=2".data) = ["a".data, "1".data, "2".data] ∧
    (run 64 64 getDefaultSymbolsTable ("a=1=2".data)).val = some 0 ∧
    (run 64 64 getDefaultSymbolsTable ("a=1=2".data)).varVal ("a".data) = some 1 := by
  refine ⟨?_, ?_, ?_, ?_, ?_⟩
  · intro pf ef t l r v t' h
    exact handleAssignment_ok_zero h
  · intro pf ef t l r hf hv
    exact handleAssignment_unknown (by simp [hf]) (by simp [hv])
  · with_unfolding_all rfl
  · with_unfolding_all rfl
  · with_unfolding_all rfl

theorem spec_C2_witness :
    ((0 : ℚ) = 0) ∧
      handleAssignment 64 64 getDefaultSymbolsTable ("A".data) ("1".data) =
        .err .unknownAssignment getDefaultSymbolsTable := by
  constructor
  · exact spec_C2.1 64 64 getDefaultSymbolsTable ("b".data) ("7".data) 0 _
      (by with_unfolding_all rfl)
  · exact spec_C2.2.1 64 64 getDefaultSymbolsTable ("A".data) ("1".data)
      (by with_unfolding_all rfl) (by with_unfolding_all rfl)

/-- C3, counterexample: the claim quantifies over *every* plain query, but
a query that reads the history variables changes its own input: on a fresh
engine `run("ans+1")` returns 1, and re-running the same query immediately
returns 2. -/
theorem spec_C3_counterexample :
    runSeq 64 64 getDefaultSymbolsTable ["ans+1".data, "ans+1".data] =
        some [1, 2] ∧ (1 : ℚ) ≠ 2 := by
  constructor
  · with_unfolding_all rfl
  · norm_num

/-- C3, amended: re-running the same plain query yields the same numeric
result provided the query's parsed expression makes no function call and
never references the history variables `ans`/`preans` (queries that read
them — directly or through a stored callable's body, which a call can
reach — observe the history roll of the first run, as the counterexample
shows). -/
theorem spec_C3 :
    ∀ parserFuel evalFuel : Nat, ∀ t : SymbolsTable, ∀ text : List Char,
      ∀ e : Expression, ∀ r : ℚ, ∀ t₁ : SymbolsTable,
      text.contains '=' = false →
      getExpression parserFuel t text = .ok e →
      noCallNoHistory e = true →
      run parserFuel evalFuel t text = .ok r t₁ →
      (run parserFuel evalFuel t₁ text).val = some r := by
  intro pf ef t text e r t₁ hne hge hnc hrun
  exact run_plain_idempotent hne hge hnc hrun

theorem spec_C3_witness :
    ∃ e r t₁,
      getExpression 64 getDefaultSymbolsTable ("2+3".data) = .ok e ∧
        noCallNoHistory e = true ∧
        run 64 64 getDefaultSymbolsTable ("2+3".data) = .ok r t₁ ∧
        (run 64 64 t₁ ("2+3".data)).val = some r := by
  have hval : (run 64 64 getDefaultSymbolsTable ("2+3".data)).val = some 5 := by
    with_unfolding_all rfl
  have hge : getExpression 64 getDefaultSymbolsTable ("2+3".data) =
      .ok (.binaryExpr ['+'] (.binaryExpr ['+'] (.constantExpr 2) (.constantExpr 3))
        (.constantExpr 0)) := by
    with_unfolding_all rfl
  cases hrun : run 64 64 getDefaultSymbolsTable ("2+3".data) with
  | err e1 t1 => rw [hrun] at hval; simp [Outcome.val] at hval
  | timeout => rw [hrun] at hval; simp [Outcome.val] at hval
  | ok r t₁ =>
    exact ⟨_, r, t₁, hge, by with_unfolding_all rfl,
      rfl, spec_C3 64 64 getDefaultSymbolsTable ("2+3".data) _ r t₁
        (by with_unfolding_all rfl) hge (by with_unfolding_all rfl) hrun⟩

/-- C4: after every successful plain (no `=`) `run`, the table holds
`ans = returned value` and `preans = the ans value from before the call`;
concretely, `3+3` then `ans*2` return 6 then 12. -/
theorem spec_C4 :
    (∀ parserFuel evalFuel : Nat, ∀ t : SymbolsTable, ∀ text : List Char,
      ∀ r : ℚ, ∀ t' : SymbolsTable,
      text.contains '=' = false →
      run parserFuel evalFuel t text = .ok r t' →
      getVariableVal t' ("ans".data) = some r ∧
        getVariableVal t' ("preans".data) = getVariableVal t ("ans".data)) ∧
    runSeq 64 64 getDefaultSymbolsTable ["3+3".data, "ans*2".data] = some [6, 12] := by
  constructor
  · intro pf ef t text r t' hne hrun
    exact run_plain_history hne hrun
  · with_unfolding_all rfl

theorem spec_C4_witness :
    ∃ r t',
      run 64 64 getDefaultSymbolsTable ("3+3".data) = .ok r t' ∧
        getVariableVal t' ("ans".data) = some r ∧
        getVariableVal t' ("preans".data) =
          getVariableVal getDefaultSymbolsTable ("ans".data) := by
  have hval : (run 64 64 getDefaultSymbolsTable ("3+3".data)).val = some 6 := by
    with_unfolding_all rfl
  cases hrun : run 64 64 getDefaultSymbolsTable ("3+3".data) with
  | err e1 t1 => rw [hrun] at hval; simp [Outcome.val] at hval
  | timeout => rw [hrun] at hval; simp [Outcome.val] at hval
  | ok r t' =>
    obtain ⟨h1, h2⟩ := spec_C4.1 64 64 getDefaultSymbolsTable ("3+3".data) r t'
      (by with_unfolding_all rfl) hrun
    exact ⟨r, t', rfl, h1, h2⟩

/-- C5: assignments round-trip through the symbol table from the default
table: `x=5` then `x` gives 0 then 5, and `f(x)=x^2` then `f(3)` gives 0
then 9. -/
theorem spec_C5 :
    runSeq 64 64 getDefaultSymbolsTable ["x=5".data, "x".data] = some [0, 5] ∧
      runSeq 64 64 getDefaultSymbolsTable ["f(x)=x^2".data, "f(3)".data] =
        some [0, 9] := by
  constructor
  · with_unfolding_all rfl
  · with_unfolding_all rfl

/-- C6: evaluating a division node fails with the divide-by-zero error
exactly when `|right| < 1e-8`, and otherwise returns the quotient; hence
`run("1/0.000000001")` fails with the arithmetic error while
`run("1/0.0001")` succeeds. -/
theorem spec_C6 :
    (∀ fuel : Nat, ∀ l r : ℚ, ∀ t : SymbolsTable,
      evalExpr (fuel + 2) (.binaryExpr ['/'] (.constantExpr l) (.constantExpr r)) t =
        if |r| < 1 / 100000000 then .err .divideByZero t else .ok (l / r) t) ∧
    (run 64 64 getDefaultSymbolsTable ("1/0.000000001".data)).errOf =
      some .divideByZero ∧
    (run 64 64 getDefaultSymbolsTable ("1/0.0001".data)).isOk = true := by
  refine ⟨?_, ?_, ?_⟩
  · intro fuel l r t
    simp only [evalExpr]
    simp only [applyBinaryOperator]
    rw [if_pos trivial]
    unfold guidedDivide
    by_cases habs : |r| < 1 / 100000000
    · rw [if_pos habs, if_pos habs]
      rw [if_neg (by decide : ¬(['/'] = ['+'])), if_neg (by decide : ¬(['/'] = ['-'])),
        if_neg (by decide : ¬(['/'] = ['*']))]
    · rw [if_neg habs, if_neg habs]
      rw [if_neg (by decide : ¬(['/'] = ['+'])), if_neg (by decide : ¬(['/'] = ['-'])),
        if_neg (by decide : ¬(['/'] = ['*']))]
  · with_unfolding_all rfl
  · with_unfolding_all rfl

/-- C7: `run("pi=3")` fails with the "cannot modify pi" error and leaves
the table exactly as it was (so `pi` keeps its constant value), and in
general a failing `setSymbol` commit on a table with distinct variable
names leaves the variables untouched — the right-hand side is fully
evaluated before the single commit, so no half-updated state remains. -/
theorem spec_C7 :
    run 64 64 getDefaultSymbolsTable ("pi=3".data) =
        .err (.cannotModify ("pi".data)) getDefaultSymbolsTable ∧
    (∀ t : SymbolsTable, ∀ n : List Char, ∀ v : ℚ, ∀ e : Err, ∀ t' : SymbolsTable,
      (t.vars.map (fun w => w.name)).Nodup →
      t.setSymbolNum n v = .error (e, t') → t' = t) := by
  constructor
  · with_unfolding_all rfl
  · intro t n v e t' hnd h
    exact setSymbolNum_error_nodup hnd h

theorem spec_C7_witness :
    ∃ e t',
      getDefaultSymbolsTable.setSymbolNum ("pi".data) 3 = .error (e, t') ∧
        t' = getDefaultSymbolsTable := by
  have h : getDefaultSymbolsTable.setSymbolNum ("pi".data) 3 =
      .error (.cannotModify ("pi".data), getDefaultSymbolsTable) := by
    with_unfolding_all rfl
  exact ⟨_, _, h, spec_C7.2 getDefaultSymbolsTable ("pi".data) 3 _ _
    (of_decide_eq_true (by with_unfolding_all rfl)) h⟩

/-- C8: factorials evaluate to 120 for `5!`, 1 for `0!`, and the returned
sentinel number −1 (not an error) for `(-3)!`. -/
theorem spec_C8 :
    (run 64 64 getDefaultSymbolsTable ("5!".data)).val = some 120 ∧
      (run 64 64 getDefaultSymbolsTable ("0!".data)).val = some 1 ∧
      (run 64 64 getDefaultSymbolsTable ("(-3)!".data)).val = some (-1) := by
  refine ⟨?_, ?_, ?_⟩ <;> with_unfolding_all rfl

/-- C9, counterexample: the claim says that for some non-integer operand
the factorial recursion descends toward negative infinity and never
terminates.  In fact every value `v` reaches a base case within
`factBudget v` unfoldings: non-integers skip the 0 case and stop at the
first negative value. -/
theorem spec_C9_counterexample :
    ¬ ∃ v : ℚ, v.den ≠ 1 ∧ ∀ fuel : Nat, factSteps fuel v = none := by
  rintro ⟨v, -, hall⟩
  obtain ⟨r, hr⟩ := factSteps_budget_some v
  rw [hall (factBudget v)] at hr
  cases hr

/-- C9, amended: for every non-integer operand the factorial recursion
fails to reach the clean 0 base case but still terminates — it descends
past zero, hits the negative-sentinel case, and returns a negative
(sentinel-tainted) product; e.g. one unfolding from 1/2 reaches the
negative base case with result −1/2. -/
theorem spec_C9 :
    (∀ v : ℚ, v.den ≠ 1 →
      ∃ r, factSteps (factBudget v) v = some r ∧ r < 0) ∧
    factSteps 1 ((1 : ℚ)/2) = some (-(1/2)) := by
  constructor
  · intro v hden
    obtain ⟨r, hr⟩ := factSteps_budget_some v
    exact ⟨r, hr, factSteps_neg_of_nonint (factBudget v) hden hr⟩
  · with_unfolding_all rfl

theorem spec_C9_witness :
    ∃ r, factSteps (factBudget ((1 : ℚ)/2)) ((1 : ℚ)/2) = some r ∧ r < 0 :=
  spec_C9.1 ((1 : ℚ)/2) (of_decide_eq_true (by with_unfolding_all rfl))

/-- C10: the empty input and the empty right-hand side of an assignment
produce an empty token sequence; parsing it returns JS `null`, which
`evalString`/`_getExpression` dereference — a `TypeError`, not one of the
spec's error taxonomy — so `run("")` and `run("a=")` neither return a
number nor raise a taxonomy error. -/
theorem spec_C10 :
    tokenise [] (getDefaultSymbolsTable.callables.map (fun c => c.name)) = .ok [] ∧
      parse 64 0 [] = .ok none ∧
      (run 64 64 getDefaultSymbolsTable ("".data)).errOf = some .nullDeref ∧
      (run 64 64 getDefaultSymbolsTable ("".data)).val = none ∧
      (run 64 64 getDefaultSymbolsTable ("a=".data)).errOf = some .nullDeref ∧
      Err.isTaxonomyError .nullDeref = false := by
  refine ⟨?_, ?_, ?_, ?_, ?_, ?_⟩ <;> with_unfolding_all rfl

end Minivac
